import Mathlib

/-!
# Verification of the DER computation core of rttm-visualizer

Shallow embedding of `src/utils.ts`: the DER (diarization error rate)
computation (`computeDER`), collar adjustment (`applyCollar`) and the RTTM
text adapters (`segmentsToRTTM`, `parseRTTMToSegments`).

Modelling conventions:
* JS numbers are modelled as exact rationals (`ℚ`).  The source's
  `Number.isNaN` / `Number.isFinite` filter on boundary values is vacuous in
  this model (every rational is finite), so it is omitted.
* JS strings are `String` for speaker/segment ids, and `List Char` inside the
  line-oriented text adapters (a JS string is exactly a sequence of
  characters; `String.data` mediates).
* The insertion-ordered JS `Set` of boundary values is modelled by
  `List.dedup` of the insertion list: the set is consumed only through
  `Array.from(...).sort(...)`, and sorting makes the dedup order irrelevant.
* Speaker sets (`getSpeakerSet`) and `Map`s (`overlapTotals`,
  `sysToRefMapping`) keep JS insertion order: lists with first-occurrence
  dedup, association lists with append-on-new-key / update-in-place.
* `Array.prototype.sort` is stable and sorts according to the comparator;
  `List.insertionSort` is the stable sort used to model it.
-/

/-- `Segment` of `utils.ts`: `{id, speakerId, start, end}`. -/
structure Segment where
  id : String
  speakerId : String
  start : ℚ
  «end» : ℚ
deriving DecidableEq

/-- `ErrorType` of `utils.ts`: `'OK' | 'MS' | 'FA' | 'SER'`. -/
inductive ErrorType where
  | OK : ErrorType
  | MS : ErrorType
  | FA : ErrorType
  | SER : ErrorType
deriving DecidableEq

/-- `ErrorInterval` of `utils.ts`; the `ref`/`sys` speaker sets are
insertion-ordered duplicate-free lists. -/
structure ErrorInterval where
  start : ℚ
  «end» : ℚ
  type : ErrorType
  ref : List String
  sys : List String
deriving DecidableEq

/-- `DERMetrics` of `utils.ts`. -/
structure DERMetrics where
  MS : ℚ
  FA : ℚ
  SER : ℚ
  DER : ℚ
  scored : ℚ
deriving DecidableEq

/-- `DERResult` of `utils.ts`. -/
structure DERResult where
  intervals : List ErrorInterval
  metrics : DERMetrics
deriving DecidableEq

/-- The comparator `(a, b) => a.start - b.start` used by
`segments.slice().sort(...)` in `computeDER` and `parseRTTMToSegments`,
as a sorting relation. -/
def byStart (a b : Segment) : Prop := a.start ≤ b.start

instance : DecidableRel byStart := fun a b =>
  inferInstanceAs (Decidable (a.start ≤ b.start))

instance : IsTotal Segment byStart := ⟨fun a b => le_total a.start b.start⟩

instance : IsTrans Segment byStart := ⟨fun _ _ _ h h' => le_trans h h'⟩

/-- `segments.slice().sort((a, b) => a.start - b.start)`: a stable sort by
start time. -/
def sortByStart (segments : List Segment) : List Segment :=
  List.insertionSort byStart segments

/-- `applyCollar` of `utils.ts`: pad each segment with the collar,
clamping the start at 0. -/
def applyCollar (segments : List Segment) (collar : ℚ) : List Segment :=
  segments.map fun seg =>
    { seg with start := max 0 (seg.start - collar), «end» := seg.«end» + collar }

/-- `const adjustedRef = collar > 0 ? applyCollar(ref, collar) : ref` in
`computeDER` (`ref` is the sorted list); the same expression is used for the
system list. -/
def adjusted (segments : List Segment) (collar : ℚ) : List Segment :=
  if collar > 0 then applyCollar (sortByStart segments) collar
  else sortByStart segments

/-- The boundary values inserted into the `boundaries` set, in insertion
order: `start` then `end` of each adjusted reference segment, then of each
adjusted system segment. -/
def boundariesOf (refSegments sysSegments : List Segment) (collar : ℚ) : List ℚ :=
  (adjusted refSegments collar).flatMap (fun s => [s.start, s.«end»]) ++
    (adjusted sysSegments collar).flatMap (fun s => [s.start, s.«end»])

/-- `const times = Array.from(boundaries).filter(finite).sort((a, b) => a - b)`:
the deduplicated boundary values in ascending order.  (The finiteness filter
is vacuous over `ℚ`; the dedup order is irrelevant because of the sort.) -/
def timesOf (refSegments sysSegments : List Segment) (collar : ℚ) : List ℚ :=
  List.insertionSort (· ≤ ·) (boundariesOf refSegments sysSegments collar).dedup

/-- JS `Set.add` on an insertion-ordered string set. -/
def insertUniq (acc : List String) (x : String) : List String :=
  if x ∈ acc then acc else acc ++ [x]

/-- `getSpeakerSet` of `utils.ts`: the set of speaker ids of the active
segments, in insertion order. -/
def getSpeakerSet (segments : List Segment) : List String :=
  segments.foldl (fun acc s => insertUniq acc s.speakerId) []

/-- One inner `Map` of `overlapTotals` (`sys speaker -> duration`):
`sysMap.set(sysSpk, (sysMap.get(sysSpk) || 0) + duration)` keeps insertion
order, updating in place. -/
def updInner (m : List (String × ℚ)) (sysSpk : String) (d : ℚ) : List (String × ℚ) :=
  match m with
  | [] => [(sysSpk, d)]
  | (s, v) :: t => if s = sysSpk then (s, v + d) :: t else (s, v) :: updInner t sysSpk d

/-- `addOverlap` of `utils.ts` on the insertion-ordered
`ref -> (sys -> duration)` table. -/
def addOverlap (ov : List (String × List (String × ℚ))) (refSpk sysSpk : String)
    (d : ℚ) : List (String × List (String × ℚ)) :=
  match ov with
  | [] => [(refSpk, [(sysSpk, d)])]
  | (r, m) :: t =>
      if r = refSpk then (r, updInner m sysSpk d) :: t
      else (r, m) :: addOverlap t refSpk sysSpk d

/-- The nested `for (const refSpk of refSpeakers) for (const sysSpk of
sysSpeakers) addOverlap(...)` loops. -/
def addAllOverlaps (ov : List (String × List (String × ℚ)))
    (refSpeakers sysSpeakers : List String) (d : ℚ) :
    List (String × List (String × ℚ)) :=
  refSpeakers.foldl
    (fun acc refSpk => sysSpeakers.foldl (fun acc2 sysSpk => addOverlap acc2 refSpk sysSpk d) acc)
    ov

/-- The mutable state of the sweep-line loop of `computeDER`. -/
structure SweepState where
  refRem : List Segment
  sysRem : List Segment
  refAct : List Segment
  sysAct : List Segment
  ivs : List ErrorInterval
  ov : List (String × List (String × ℚ))
  scored : ℚ
deriving DecidableEq

/-- The body of `for (let i = 0; i < times.length - 1; i++)` in `computeDER`,
processing the atomic interval `[t0, t1)`: advance the two segment pointers
(a `while` loop pushing while `start ≤ t0`, i.e. a span), drop active
segments with `end ≤ t0`, accumulate scored speech time and pairwise
overlaps, and push the interval (typed `'OK'` for now). -/
def sweepStep (st : SweepState) (t0 t1 : ℚ) : SweepState :=
  let duration := max 0 (t1 - t0)
  let refAct' := (st.refAct ++ st.refRem.takeWhile (fun s => s.start ≤ t0)).filter
    (fun s => t0 < s.«end»)
  let sysAct' := (st.sysAct ++ st.sysRem.takeWhile (fun s => s.start ≤ t0)).filter
    (fun s => t0 < s.«end»)
  let refSpeakers := getSpeakerSet refAct'
  let sysSpeakers := getSpeakerSet sysAct'
  let scored' := if refSpeakers ≠ [] then st.scored + duration else st.scored
  let ov' := if refSpeakers ≠ [] ∧ sysSpeakers ≠ [] then
      addAllOverlaps st.ov refSpeakers sysSpeakers duration
    else st.ov
  { refRem := st.refRem.dropWhile (fun s => s.start ≤ t0)
    sysRem := st.sysRem.dropWhile (fun s => s.start ≤ t0)
    refAct := refAct'
    sysAct := sysAct'
    ivs := st.ivs ++ [⟨t0, t1, .OK, refSpeakers, sysSpeakers⟩]
    ov := ov'
    scored := scored' }

/-- The whole sweep loop: process each consecutive pair of boundary times. -/
def sweepLoop (st : SweepState) : List ℚ → SweepState
  | t0 :: t1 :: rest => sweepLoop (sweepStep st t0 t1) (t1 :: rest)
  | _ => st

/-- The sweep of `computeDER` run from the initial state over the sorted
boundary times. -/
def sweepOf (refSegments sysSegments : List Segment) (collar : ℚ) : SweepState :=
  sweepLoop
    ⟨adjusted refSegments collar, adjusted sysSegments collar, [], [], [], [], 0⟩
    (timesOf refSegments sysSegments collar)

/-- Flattening of `overlapTotals` into `mappingPairs`
(`{ref, sys, duration}` triples, in `Map` iteration order). -/
def mappingPairsOf (ov : List (String × List (String × ℚ))) :
    List (String × String × ℚ) :=
  ov.flatMap fun p => p.2.map fun q => (p.1, q.1, q.2)

/-- The comparator `(a, b) => b.duration - a.duration` (descending by
duration) as a sorting relation. -/
def byDurationDesc (a b : String × String × ℚ) : Prop := b.2.2 ≤ a.2.2

instance : DecidableRel byDurationDesc := fun a b =>
  inferInstanceAs (Decidable (b.2.2 ≤ a.2.2))

instance : IsTotal (String × String × ℚ) byDurationDesc :=
  ⟨fun a b => le_total b.2.2 a.2.2⟩

instance : IsTrans (String × String × ℚ) byDurationDesc :=
  ⟨fun _ _ _ h h' => le_trans h' h⟩

/-- `mappingPairs.sort((a, b) => b.duration - a.duration)`: stable sort,
descending by duration. -/
def sortPairs (ps : List (String × String × ℚ)) : List (String × String × ℚ) :=
  List.insertionSort byDurationDesc ps

/-- The greedy assignment loop of `computeDER`: skip non-positive and
already-claimed pairs, otherwise commit `sys -> ref`.  The mapping is an
insertion-ordered association list keyed by the system speaker. -/
def greedyLoop : List (String × String × ℚ) → List String → List String →
    List (String × String) → List (String × String)
  | [], _, _, m => m
  | (r, s, d) :: rest, usedRef, usedSys, m =>
      if d ≤ 0 then greedyLoop rest usedRef usedSys m
      else if r ∈ usedRef ∨ s ∈ usedSys then greedyLoop rest usedRef usedSys m
      else greedyLoop rest (usedRef ++ [r]) (usedSys ++ [s]) (m ++ [(s, r)])

/-- `sysToRefMapping` as built by `computeDER` (system speaker id to
reference speaker id). -/
def speakerMapping (refSegments sysSegments : List Segment) (collar : ℚ) :
    List (String × String) :=
  greedyLoop (sortPairs (mappingPairsOf (sweepOf refSegments sysSegments collar).ov))
    [] [] []

/-- The inner `for (const sysSpk of interval.sys)` loop of the classifier:
`mappedRefSpk && interval.ref.has(mappedRefSpk)`.  Note the JS truthiness
check: an empty-string mapped reference speaker is falsy and therefore does
not count as a correct mapping. -/
def hasCorrectMapping (m : List (String × String)) (iv : ErrorInterval) : Bool :=
  iv.sys.any fun sysSpk =>
    match m.lookup sysSpk with
    | some mappedRefSpk => mappedRefSpk ≠ "" && iv.ref.contains mappedRefSpk
    | none => false

/-- The classification loop of `computeDER`: label every interval and
accumulate `missedSpeechTime`, `falseAlarmTime`, `speakerErrorTime`.  The
accumulator is `(intervals so far, MS time, FA time, SER time)`. -/
def classifyLoop (m : List (String × String)) :
    List ErrorInterval → List ErrorInterval × ℚ × ℚ × ℚ →
    List ErrorInterval × ℚ × ℚ × ℚ
  | [], acc => acc
  | iv :: rest, (done, ms, fa, ser) =>
      let duration := max 0 (iv.«end» - iv.start)
      if iv.ref ≠ [] ∧ iv.sys = [] then
        classifyLoop m rest (done ++ [{ iv with type := .MS }], ms + duration, fa, ser)
      else if iv.ref = [] ∧ iv.sys ≠ [] then
        classifyLoop m rest (done ++ [{ iv with type := .FA }], ms, fa + duration, ser)
      else if iv.ref ≠ [] ∧ iv.sys ≠ [] then
        if hasCorrectMapping m iv then
          classifyLoop m rest (done ++ [{ iv with type := .OK }], ms, fa, ser)
        else
          classifyLoop m rest (done ++ [{ iv with type := .SER }], ms, fa, ser + duration)
      else
        classifyLoop m rest (done ++ [iv], ms, fa, ser)

/-- The classification pass of `computeDER` on the sweep output. -/
def classifiedOf (refSegments sysSegments : List Segment) (collar : ℚ) :
    List ErrorInterval × ℚ × ℚ × ℚ :=
  classifyLoop (speakerMapping refSegments sysSegments collar)
    (sweepOf refSegments sysSegments collar).ivs ([], 0, 0, 0)

/-- `missedSpeechTime` accumulated by `computeDER`. -/
def missedSpeechTime (refSegments sysSegments : List Segment) (collar : ℚ) : ℚ :=
  (classifiedOf refSegments sysSegments collar).2.1

/-- `falseAlarmTime` accumulated by `computeDER`. -/
def falseAlarmTime (refSegments sysSegments : List Segment) (collar : ℚ) : ℚ :=
  (classifiedOf refSegments sysSegments collar).2.2.1

/-- `speakerErrorTime` accumulated by `computeDER`. -/
def speakerErrorTime (refSegments sysSegments : List Segment) (collar : ℚ) : ℚ :=
  (classifiedOf refSegments sysSegments collar).2.2.2

/-- `scoredSpeechTime` accumulated by `computeDER`. -/
def scoredSpeechTime (refSegments sysSegments : List Segment) (collar : ℚ) : ℚ :=
  (sweepOf refSegments sysSegments collar).scored

/-- `computeDER` of `utils.ts`. -/
def computeDER (refSegments sysSegments : List Segment) (collar : ℚ) : DERResult :=
  let scored := scoredSpeechTime refSegments sysSegments collar
  let MSp := if scored > 0 then missedSpeechTime refSegments sysSegments collar / scored * 100 else 0
  let FAp := if scored > 0 then falseAlarmTime refSegments sysSegments collar / scored * 100 else 0
  let SERp := if scored > 0 then speakerErrorTime refSegments sysSegments collar / scored * 100 else 0
  { intervals := (classifiedOf refSegments sysSegments collar).1
    metrics :=
      { MS := MSp
        FA := FAp
        SER := SERp
        DER := MSp + FAp + SERp
        scored := scored } }

/-! ## RTTM text adapters

The adapters work on `List Char` (a JS string is a sequence of UTF-16 code
units; all characters involved are plain ASCII/BMP).  Simplifications kept
faithful for every claim:
* `parseFloat` is modelled without the `Infinity` literal (no infinite
  rationals exist) and without leading whitespace skipping (it is only
  applied to whitespace-free tokens).
* The whitespace class of `trim` / `split(/\s+/)` is modelled by
  `Char.isWhitespace` (space, tab, CR, LF), the characters that actually
  occur in RTTM data.
* `toFixed(3)` on an exact rational rounds half away from zero toward the
  larger candidate, exactly the ECMAScript `toFixed` rule ("pick the larger
  n"), which is `round` (half toward plus infinity) of Mathlib.  The `-0`
  string form is not distinguished (its numeric value is 0 either way). -/

/-- Decimal digit character of a value `< 10`. -/
def digitChar (d : ℕ) : Char := Char.ofNat (48 + d)

/-- Numeric value of a decimal digit character, if any. -/
def digitVal (c : Char) : Option ℕ :=
  if c = '0' then some 0 else if c = '1' then some 1
  else if c = '2' then some 2 else if c = '3' then some 3
  else if c = '4' then some 4 else if c = '5' then some 5
  else if c = '6' then some 6 else if c = '7' then some 7
  else if c = '8' then some 8 else if c = '9' then some 9
  else none

/-- Decimal digit characters of a natural number (most significant first;
`0` prints as a single zero). -/
def natChars (n : ℕ) : List Char :=
  if n = 0 then [digitChar 0] else ((Nat.digits 10 n).reverse.map digitChar)

/-- A natural number below 1000 padded to exactly three digit characters. -/
def pad3 (m : ℕ) : List Char :=
  [digitChar (m / 100), digitChar (m / 10 % 10), digitChar (m % 10)]

/-- The integer `toFixed(3)` rounds `q * 1000` to: nearest, ties to the
larger candidate (ECMAScript `Number.prototype.toFixed`). -/
def fixed3Int (q : ℚ) : ℤ := round (q * 1000)

/-- `x.toFixed(3)` on an exact rational: optional minus sign, integer part,
decimal point, exactly three fractional digits. -/
def toFixed3 (q : ℚ) : List Char :=
  (if fixed3Int q < 0 then ['-'] else []) ++
    natChars ((fixed3Int q).natAbs / 1000) ++
    '.' :: pad3 ((fixed3Int q).natAbs % 1000)

/-- Leading run of decimal digits of a character list: their values and the
rest of the list. -/
def takeDigits : List Char → List ℕ × List Char
  | [] => ([], [])
  | c :: cs =>
      match digitVal c with
      | some d => (d :: (takeDigits cs).1, (takeDigits cs).2)
      | none => ([], c :: cs)

/-- Value of a big-endian decimal digit list. -/
def beVal (ds : List ℕ) : ℕ := ds.foldl (fun a d => 10 * a + d) 0

/-- The value of an unsigned decimal exponent digit run; an `e` not followed
by a digit is not part of the number (`parseFloat` keeps the longest valid
numeric literal, so the exponent then contributes a factor of 1). -/
def expVal (l : List Char) : ℤ :=
  if (takeDigits l).1 = [] then 0 else (beVal (takeDigits l).1 : ℤ)

/-- The optionally signed decimal exponent after `e`/`E`. -/
def parseSignedExp (l : List Char) : ℤ :=
  match l with
  | [] => 0
  | c :: r =>
      if c = '+' then expVal r
      else if c = '-' then -expVal r
      else expVal (c :: r)

/-- The exponent part of a JS numeric literal, `0` when absent. -/
def parseExpPart (l : List Char) : ℤ :=
  match l with
  | [] => 0
  | c :: rest => if c = 'e' ∨ c = 'E' then parseSignedExp rest else 0

/-- The fractional digits after a decimal point, and the rest of the input
(`(l, [])` split when no point is present). -/
def fracSplit (l : List Char) : List ℕ × List Char :=
  match l with
  | [] => ([], [])
  | c :: r => if c = '.' then takeDigits r else ([], c :: r)

/-- The unsigned part of `parseFloatQ` (`sgn` is the already-parsed sign). -/
def parseFloatPos (sgn : ℚ) (l : List Char) : Option ℚ :=
  let ip := (takeDigits l).1
  let fp := (fracSplit (takeDigits l).2).1
  let l3 := (fracSplit (takeDigits l).2).2
  if ip = [] ∧ fp = [] then none
  else some (sgn * ((beVal ip : ℚ) + (beVal fp : ℚ) / 10 ^ fp.length) *
    (10 : ℚ) ^ parseExpPart l3)

/-- JS `parseFloat` on an exact-rational model: optional sign, integer
digits, optional fraction, optional exponent; the longest valid numeric
literal wins and trailing garbage is ignored; `none` models `NaN` (no digit
at all). -/
def parseFloatQ (l : List Char) : Option ℚ :=
  match l with
  | [] => parseFloatPos 1 []
  | c :: r =>
      if c = '+' then parseFloatPos 1 r
      else if c = '-' then parseFloatPos (-1) r
      else parseFloatPos 1 (c :: r)

/-- JS `String.prototype.trim` (whitespace stripped from both ends). -/
def trimWs (l : List Char) : List Char :=
  ((l.dropWhile Char.isWhitespace).reverse.dropWhile Char.isWhitespace).reverse

/-- Helper for `tokens`: `cur` is the (reversed) token being accumulated. -/
def tokensAux : List Char → List Char → List (List Char)
  | [], cur => if cur = [] then [] else [cur.reverse]
  | c :: cs, cur =>
      if c.isWhitespace then
        if cur = [] then tokensAux cs [] else cur.reverse :: tokensAux cs []
      else tokensAux cs (c :: cur)

/-- `trimmed.split(/\s+/)` on an already-trimmed line: the maximal
whitespace-free runs.  (On a trimmed string the JS split produces no empty
fields, so this is exact.) -/
def tokens (l : List Char) : List (List Char) := tokensAux l []

/-- Helper for `splitLines`: accumulate the current line (reversed). -/
def splitNlAux : List Char → List Char → List (List Char)
  | [], cur => [cur.reverse]
  | c :: cs, cur =>
      if c = '\n' then cur.reverse :: splitNlAux cs [] else splitNlAux cs (c :: cur)

/-- Strip one trailing carriage return from a line. -/
def stripCr (l : List Char) : List Char :=
  if l.getLast? = some '\r' then l.dropLast else l

/-- `rttmText.split(/\r?\n/)`: split at newlines, each line losing one
trailing CR.  (The only deviation from the JS regex split is a trailing CR
on the final, newline-less line, which the subsequent `trim` removes in
both readings.) -/
def splitLines (l : List Char) : List (List Char) :=
  (splitNlAux l []).map stripCr

/-- The `speakerId` of one parsed RTTM line: `fields[7] || 'unknown'`
(a missing or empty 8th field is falsy). -/
def speakerIdOfFields (fields : List (List Char)) : String :=
  match fields.get? 7 with
  | some f => if f = [] then "unknown" else String.mk f
  | none => "unknown"

/-- The body of the line loop of `parseRTTMToSegments`: skip blank and `;`
comment lines and lines whose first field is not `SPEAKER`; parse
`fields[3]` (start) and `fields[4]` (duration); emit the segment only when
both parse and the duration is positive.  (A missing field parses to `NaN`
in JS, modelled by `none`.) -/
def parseRTTMLine (line : List Char) : Option Segment :=
  let trimmed := trimWs line
  if trimmed = [] then none
  else if trimmed.head? = some ';' then none
  else
    let fields := tokens trimmed
    if fields.get? 0 ≠ some ("SPEAKER".data) then none
    else
      match (fields.get? 3).bind parseFloatQ, (fields.get? 4).bind parseFloatQ with
      | some start, some duration =>
          if duration > 0 then
            some
              { id := String.mk ((speakerIdOfFields fields).data ++
                  '_' :: toFixed3 start ++ '_' :: toFixed3 (start + duration))
                speakerId := speakerIdOfFields fields
                start := start
                «end» := start + duration }
          else none
      | _, _ => none

/-- `parseRTTMToSegments` of `utils.ts`: parse every line, then sort the
collected segments by start (stable sort, as in the source). -/
def parseRTTMToSegments (rttmText : List Char) : List Segment :=
  List.insertionSort byStart ((splitLines rttmText).filterMap parseRTTMLine)

/-- Join token lists with a single separator character between them. -/
def joinSep (sep : Char) : List (List Char) → List Char
  | [] => []
  | [t] => t
  | t :: ts => t ++ sep :: joinSep sep ts

/-- One line of `segmentsToRTTM`:
`SPEAKER <file> 1 <tbeg> <tdur> <NA> <NA> <name> <NA>` with
`tdur = max(0.01, end - start)` and both numbers via `toFixed(3)`. -/
def rttmLine (fileId : List Char) (seg : Segment) : List Char :=
  joinSep ' '
    ["SPEAKER".data, fileId, ['1'], toFixed3 seg.start,
      toFixed3 (max (1 / 100) (seg.«end» - seg.start)),
      "<NA>".data, "<NA>".data, seg.speakerId.data, "<NA>".data]

/-- `segmentsToRTTM` of `utils.ts`: one line per segment in start order,
joined by newlines, with a trailing newline. -/
def segmentsToRTTM (segments : List Segment) (fileId : List Char) : List Char :=
  joinSep '\n' ((sortByStart segments).map (rttmLine fileId)) ++ ['\n']

/-- The classification of a single interval, as a function (the branch
structure of the classification loop of `computeDER`). -/
def applyClass (m : List (String × String)) (iv : ErrorInterval) : ErrorInterval :=
  if iv.ref ≠ [] ∧ iv.sys = [] then { iv with type := .MS }
  else if iv.ref = [] ∧ iv.sys ≠ [] then { iv with type := .FA }
  else if iv.ref ≠ [] ∧ iv.sys ≠ [] then
    if hasCorrectMapping m iv then { iv with type := .OK } else { iv with type := .SER }
  else iv

/-- Duration contributed by an interval to `missedSpeechTime`. -/
def msTime (iv : ErrorInterval) : ℚ :=
  if iv.ref ≠ [] ∧ iv.sys = [] then max 0 (iv.«end» - iv.start) else 0

/-- Duration contributed by an interval to `falseAlarmTime`. -/
def faTime (iv : ErrorInterval) : ℚ :=
  if iv.ref = [] ∧ iv.sys ≠ [] then max 0 (iv.«end» - iv.start) else 0

/-- Duration contributed by an interval to `speakerErrorTime`. -/
def serTime (m : List (String × String)) (iv : ErrorInterval) : ℚ :=
  if (iv.ref ≠ [] ∧ iv.sys ≠ []) ∧ ¬ hasCorrectMapping m iv then
    max 0 (iv.«end» - iv.start)
  else 0

/-- Consecutive pairs of a list of boundary times. -/
def pairsOf (T : List ℚ) : List (ℚ × ℚ) := T.zip T.tail

/-- The scored-speech sum over a list of intervals: the duration of every
interval whose reference speaker set is non-empty. -/
def ivScored (ivs : List ErrorInterval) : ℚ :=
  (ivs.map (fun iv => if iv.ref ≠ [] then max 0 (iv.«end» - iv.start) else 0)).sum

/-- Accumulated overlap of a (reference, system) speaker pair in the
overlap table (`overlapTotals` double lookup). -/
def ovLookup (ov : List (String × List (String × ℚ))) (refSpk sysSpk : String) :
    Option ℚ :=
  (ov.lookup refSpk).bind fun m => m.lookup sysSpk

/-- `overlapTotals` as built by `computeDER`. -/
def overlapTable (refSegments sysSegments : List Segment) (collar : ℚ) :
    List (String × List (String × ℚ)) :=
  (sweepOf refSegments sysSegments collar).ov

/-- Well-formedness of the overlap table: duplicate-free keys at both
levels (it models a `Map` of `Map`s). -/
def ovWF (ov : List (String × List (String × ℚ))) : Prop :=
  (ov.map Prod.fst).Nodup ∧ ∀ p ∈ ov, (p.2.map Prod.fst).Nodup

/-- Whether some reference segment is active at time `t` (half-open
`[start, end)` semantics). -/
def refIndicator (L : List Segment) (t : ℚ) : Bool :=
  L.any fun s => decide (s.start ≤ t) && decide (t < s.«end»)

/-- The scored-speech sum over consecutive boundary pairs, driven by the
activity indicator of the segment list `L`. -/
def mu (L : List Segment) : List ℚ → ℚ
  | t0 :: t1 :: rest =>
      (if refIndicator L t0 then max 0 (t1 - t0) else 0) + mu L (t1 :: rest)
  | _ => 0

/-- All interval boundary values of a segment list. -/
def refBounds (L : List Segment) : List ℚ :=
  L.flatMap fun s => [s.start, s.«end»]

/-- `toFixed(3)` as a rational: the value actually encoded in the emitted
decimal string. -/
def round3 (q : ℚ) : ℚ := (round (q * 1000) : ℚ) / 1000

/-- Big-endian digit values of a natural number as printed by `natChars`. -/
def natDigitsBE (n : ℕ) : List ℕ :=
  if n = 0 then [0] else (Nat.digits 10 n).reverse

/-- A usable RTTM token: non-empty and whitespace-free. -/
def wsFree (t : List Char) : Prop :=
  t ≠ [] ∧ ∀ ch ∈ t, ch.isWhitespace = false

/-! ## Small evaluation helpers -/

theorem digitChar_zero : digitChar 0 = '0' := rfl

theorem digitChar_one : digitChar 1 = '1' := rfl

theorem digitChar_two : digitChar 2 = '2' := rfl

theorem digitChar_three : digitChar 3 = '3' := rfl

theorem digitChar_four : digitChar 4 = '4' := rfl

theorem digitChar_five : digitChar 5 = '5' := rfl

theorem digitChar_six : digitChar 6 = '6' := rfl

theorem digitChar_seven : digitChar 7 = '7' := rfl

theorem digitChar_eight : digitChar 8 = '8' := rfl

theorem digitChar_nine : digitChar 9 = '9' := rfl

/-! ## Collar behaviour (claims C7 and C9) -/

theorem adjusted_of_not_pos (segments : List Segment) (c : ℚ) (h : ¬ 0 < c) :
    adjusted segments c = sortByStart segments := by
  simp [adjusted, h]

/-- **C9** — A negative collar behaves exactly like collar `0`: the guard
`collar > 0 ? applyCollar(...) : ...` ignores it, and the collar is not used
anywhere else, so `computeDER` returns the very same result. -/
theorem computeDER_neg_collar_eq_zero (refSegments sysSegments : List Segment)
    (c : ℚ) (h : c < 0) :
    computeDER refSegments sysSegments c = computeDER refSegments sysSegments 0 := by
  have h1 : ¬ 0 < c := by linarith
  have h2 : ¬ 0 < (0 : ℚ) := by norm_num
  simp only [computeDER, missedSpeechTime, falseAlarmTime, speakerErrorTime,
    scoredSpeechTime, classifiedOf, speakerMapping, sweepOf, timesOf,
    boundariesOf, adjusted_of_not_pos _ _ h1, adjusted_of_not_pos _ _ h2]

/-- Witness for C9 at a concrete input. -/
theorem computeDER_neg_collar_eq_zero_witness :
    computeDER [⟨"i", "A", 0, 10⟩] [⟨"j", "B", 1, 2⟩] (-1) =
      computeDER [⟨"i", "A", 0, 10⟩] [⟨"j", "B", 1, 2⟩] 0 :=
  computeDER_neg_collar_eq_zero _ _ (-1) (by norm_num)

/-- **C7** — The collar step as wired into `computeDER` (the function
`adjusted`, applied identically to the reference and system lists): for a
positive collar `c` it maps every segment to the segment with start
`max 0 (start - c)` and end `end + c`, keeping `id` and `speakerId`; for
`c = 0` it is the identity on the (sorted) list; it never merges segments
(the length is preserved). -/
theorem adjusted_spec (segments : List Segment) (c : ℚ) :
    (0 < c → adjusted segments c = (sortByStart segments).map fun s =>
      { id := s.id, speakerId := s.speakerId,
        start := max 0 (s.start - c), «end» := s.«end» + c }) ∧
    (c = 0 → adjusted segments c = sortByStart segments) ∧
    (adjusted segments c).length = (sortByStart segments).length := by
  refine ⟨fun hc => ?_, fun hc => ?_, ?_⟩
  · simp [adjusted, hc, applyCollar]
  · subst hc
    simp [adjusted]
  · by_cases hc : 0 < c
    · simp [adjusted, hc, applyCollar]
    · simp [adjusted, hc]

/-- Witness for C7 at a concrete input (collar `1` and collar `0`). -/
theorem adjusted_spec_witness :
    adjusted [⟨"i", "A", 1, 2⟩] 1 = [⟨"i", "A", 0, 3⟩] ∧
      adjusted [⟨"i", "A", 1, 2⟩] 0 = [⟨"i", "A", 1, 2⟩] := by
  constructor
  · rw [(adjusted_spec [⟨"i", "A", 1, 2⟩] 1).1 (by norm_num)]
    norm_num [sortByStart, List.insertionSort]
  · rw [(adjusted_spec [⟨"i", "A", 1, 2⟩] 0).2.1 rfl]
    norm_num [sortByStart, List.insertionSort]

/-! ## Metric aggregation (claim C4) -/

/-- **C4** — The returned metrics: with zero scored speech time every
percentage is 0 (the division is guarded); with positive scored speech time
each of MS/FA/SER is the accumulated error time divided by the scored time,
times 100; and `DER = MS + FA + SER` holds in every case. -/
theorem computeDER_metrics_spec (refSegments sysSegments : List Segment) (c : ℚ) :
    ((computeDER refSegments sysSegments c).metrics.scored = 0 →
      (computeDER refSegments sysSegments c).metrics.MS = 0 ∧
      (computeDER refSegments sysSegments c).metrics.FA = 0 ∧
      (computeDER refSegments sysSegments c).metrics.SER = 0 ∧
      (computeDER refSegments sysSegments c).metrics.DER = 0) ∧
    (0 < (computeDER refSegments sysSegments c).metrics.scored →
      (computeDER refSegments sysSegments c).metrics.MS =
        missedSpeechTime refSegments sysSegments c /
          (computeDER refSegments sysSegments c).metrics.scored * 100 ∧
      (computeDER refSegments sysSegments c).metrics.FA =
        falseAlarmTime refSegments sysSegments c /
          (computeDER refSegments sysSegments c).metrics.scored * 100 ∧
      (computeDER refSegments sysSegments c).metrics.SER =
        speakerErrorTime refSegments sysSegments c /
          (computeDER refSegments sysSegments c).metrics.scored * 100) ∧
    (computeDER refSegments sysSegments c).metrics.DER =
      (computeDER refSegments sysSegments c).metrics.MS +
        (computeDER refSegments sysSegments c).metrics.FA +
        (computeDER refSegments sysSegments c).metrics.SER := by
  refine ⟨fun h0 => ?_, fun hpos => ?_, ?_⟩
  · have hs : scoredSpeechTime refSegments sysSegments c = 0 := by
      simpa [computeDER] using h0
    have : ¬ 0 < scoredSpeechTime refSegments sysSegments c := by
      rw [hs]
      exact lt_irrefl 0
    simp [computeDER, this]
  · have : 0 < scoredSpeechTime refSegments sysSegments c := by
      simpa [computeDER] using hpos
    simp [computeDER, this]
  · simp [computeDER]

/-- Witness for C4 at a concrete input (empty input has zero scored time). -/
theorem computeDER_metrics_spec_witness :
    (computeDER [] [] 0).metrics.MS = 0 ∧
      (computeDER [] [] 0).metrics.DER =
        (computeDER [] [] 0).metrics.MS + (computeDER [] [] 0).metrics.FA +
          (computeDER [] [] 0).metrics.SER := by
  have h0 : (computeDER [] [] 0).metrics.scored = 0 := by
    norm_num [computeDER, scoredSpeechTime, sweepOf, timesOf, boundariesOf,
      adjusted, sortByStart, List.insertionSort, applyCollar, sweepLoop]
  exact ⟨((computeDER_metrics_spec [] [] 0).1 h0).1,
    (computeDER_metrics_spec [] [] 0).2.2⟩

/-! ## The classification pass (claims C1, C6) -/

/-- Functional characterization of the classification loop. -/
theorem classifyLoop_spec (m : List (String × String)) :
    ∀ (ivs : List ErrorInterval) (done : List ErrorInterval) (ms fa ser : ℚ),
      classifyLoop m ivs (done, ms, fa, ser) =
        (done ++ ivs.map (applyClass m), ms + (ivs.map msTime).sum,
          fa + (ivs.map faTime).sum, ser + (ivs.map (serTime m)).sum)
  | [], done, ms, fa, ser => by simp [classifyLoop]
  | iv :: rest, done, ms, fa, ser => by
    rcases Decidable.em (iv.ref ≠ [] ∧ iv.sys = []) with h1 | h1
    · have e : classifyLoop m (iv :: rest) (done, ms, fa, ser) =
          classifyLoop m rest (done ++ [{ iv with type := .MS }],
            ms + max 0 (iv.«end» - iv.start), fa, ser) := by
        simp [classifyLoop, h1]
      rw [e, classifyLoop_spec m rest]
      simp only [List.map_cons, List.sum_cons]
      have hmt : msTime iv = max 0 (iv.«end» - iv.start) := by simp [msTime, h1]
      have hft : faTime iv = 0 := by simp [faTime, h1.1]
      have hst : serTime m iv = 0 := by simp [serTime, h1.2]
      have hac : applyClass m iv = { iv with type := .MS } := by simp [applyClass, h1]
      simp [hmt, hft, hst, hac, add_assoc]
    · rcases Decidable.em (iv.ref = [] ∧ iv.sys ≠ []) with h2 | h2
      · have e : classifyLoop m (iv :: rest) (done, ms, fa, ser) =
            classifyLoop m rest (done ++ [{ iv with type := .FA }],
              ms, fa + max 0 (iv.«end» - iv.start), ser) := by
          simp [classifyLoop, h1, h2]
        rw [e, classifyLoop_spec m rest]
        simp only [List.map_cons, List.sum_cons]
        have hmt : msTime iv = 0 := by simp [msTime, h2.1]
        have hft : faTime iv = max 0 (iv.«end» - iv.start) := by simp [faTime, h2]
        have hst : serTime m iv = 0 := by simp [serTime, h2.1]
        have hac : applyClass m iv = { iv with type := .FA } := by
          simp [applyClass, h1, h2]
        simp [hmt, hft, hst, hac, add_assoc]
      · rcases Decidable.em (iv.ref ≠ [] ∧ iv.sys ≠ []) with h3 | h3
        · have hmt : msTime iv = 0 := by simp [msTime, h3.2]
          have hft : faTime iv = 0 := by simp [faTime, h3.1]
          rcases Decidable.em (hasCorrectMapping m iv = true) with h4 | h4
          · have e : classifyLoop m (iv :: rest) (done, ms, fa, ser) =
                classifyLoop m rest (done ++ [{ iv with type := .OK }],
                  ms, fa, ser) := by
              simp [classifyLoop, h1, h2, h3, h4]
            rw [e, classifyLoop_spec m rest]
            simp only [List.map_cons, List.sum_cons]
            have hst : serTime m iv = 0 := by simp [serTime, h4]
            have hac : applyClass m iv = { iv with type := .OK } := by
              simp [applyClass, h1, h2, h3, h4]
            simp [hmt, hft, hst, hac, add_assoc]
          · have e : classifyLoop m (iv :: rest) (done, ms, fa, ser) =
                classifyLoop m rest (done ++ [{ iv with type := .SER }],
                  ms, fa, ser + max 0 (iv.«end» - iv.start)) := by
              simp [classifyLoop, h1, h2, h3, h4]
            rw [e, classifyLoop_spec m rest]
            simp only [List.map_cons, List.sum_cons]
            have hst : serTime m iv = max 0 (iv.«end» - iv.start) := by
              simp [serTime, h3, h4]
            have hac : applyClass m iv = { iv with type := .SER } := by
              simp [applyClass, h1, h2, h3, h4]
            simp [hmt, hft, hst, hac, add_assoc]
        · have e : classifyLoop m (iv :: rest) (done, ms, fa, ser) =
              classifyLoop m rest (done ++ [iv], ms, fa, ser) := by
            simp [classifyLoop, h1, h2, h3]
          rw [e, classifyLoop_spec m rest]
          simp only [List.map_cons, List.sum_cons]
          have hmt : msTime iv = 0 := by simp [msTime, h1]
          have hft : faTime iv = 0 := by simp [faTime, h2]
          have hst : serTime m iv = 0 := by simp [serTime, h3]
          have hac : applyClass m iv = iv := by simp [applyClass, h1, h2, h3]
          simp [hmt, hft, hst, hac, add_assoc]

/-! ## The sweep loop: structural facts -/

theorem sweepStep_ivs (st : SweepState) (t0 t1 : ℚ) :
    (sweepStep st t0 t1).ivs = st.ivs ++
      [⟨t0, t1, .OK,
        getSpeakerSet ((st.refAct ++ st.refRem.takeWhile (fun s => s.start ≤ t0)).filter
          (fun s => t0 < s.«end»)),
        getSpeakerSet ((st.sysAct ++ st.sysRem.takeWhile (fun s => s.start ≤ t0)).filter
          (fun s => t0 < s.«end»))⟩] := rfl

theorem sweepStep_scored (st : SweepState) (t0 t1 : ℚ) :
    (sweepStep st t0 t1).scored =
      if getSpeakerSet ((st.refAct ++ st.refRem.takeWhile (fun s => s.start ≤ t0)).filter
          (fun s => t0 < s.«end»)) ≠ [] then st.scored + max 0 (t1 - t0)
      else st.scored := rfl

/-- Structure of a full sweep run: it appends one interval per consecutive
pair of times, every appended interval is typed `'OK'`, the scored speech
time grows by the scored-sum of the appended intervals, and an empty system
list yields empty system speaker sets throughout. -/
theorem sweepLoop_main : ∀ (T : List ℚ) (st : SweepState),
    ∃ new : List ErrorInterval,
      (sweepLoop st T).ivs = st.ivs ++ new ∧
      new.map (fun iv => (iv.start, iv.«end»)) = pairsOf T ∧
      (∀ iv ∈ new, iv.type = .OK) ∧
      (sweepLoop st T).scored = st.scored + ivScored new ∧
      (st.sysRem = [] ∧ st.sysAct = [] → ∀ iv ∈ new, iv.sys = [])
  | [], st => ⟨[], by simp [sweepLoop], by simp [pairsOf], by simp,
      by simp [sweepLoop, ivScored], by simp⟩
  | [t], st => ⟨[], by simp [sweepLoop], by simp [pairsOf], by simp,
      by simp [sweepLoop, ivScored], by simp⟩
  | t0 :: t1 :: rest, st => by
      obtain ⟨new', h1, h2, h3, h4, h5⟩ := sweepLoop_main (t1 :: rest) (sweepStep st t0 t1)
      have hloop : sweepLoop st (t0 :: t1 :: rest) = sweepLoop (sweepStep st t0 t1) (t1 :: rest) := by
        simp [sweepLoop]
      refine ⟨⟨t0, t1, .OK,
        getSpeakerSet ((st.refAct ++ st.refRem.takeWhile (fun s => s.start ≤ t0)).filter
          (fun s => t0 < s.«end»)),
        getSpeakerSet ((st.sysAct ++ st.sysRem.takeWhile (fun s => s.start ≤ t0)).filter
          (fun s => t0 < s.«end»))⟩ :: new', ?_, ?_, ?_, ?_, ?_⟩
      · rw [hloop, h1, sweepStep_ivs]
        simp
      · simp only [List.map_cons, h2, pairsOf]
        rfl
      · intro iv hiv
        rcases List.mem_cons.mp hiv with h | h
        · rw [h]
        · exact h3 iv h
      · rw [hloop, h4, sweepStep_scored]
        simp only [ivScored, List.map_cons, List.sum_cons]
        rcases Decidable.em (getSpeakerSet ((st.refAct ++ st.refRem.takeWhile
            (fun s => s.start ≤ t0)).filter (fun s => t0 < s.«end»)) = []) with hr | hr
        · rw [if_neg (not_not_intro hr), if_neg (not_not_intro hr)]
          ring
        · rw [if_pos hr, if_pos hr]
          ring
      · rintro ⟨hrem, hact⟩ iv hiv
        have hstep : (sweepStep st t0 t1).sysRem = [] ∧ (sweepStep st t0 t1).sysAct = [] := by
          simp [sweepStep, hrem, hact]
        rcases List.mem_cons.mp hiv with h | h
        · rw [h]
          simp [hrem, hact, getSpeakerSet]
        · exact h5 hstep iv h

/-- The returned intervals are the sweep intervals, each classified. -/
theorem computeDER_intervals (refSegments sysSegments : List Segment) (c : ℚ) :
    (computeDER refSegments sysSegments c).intervals =
      ((sweepOf refSegments sysSegments c).ivs).map
        (applyClass (speakerMapping refSegments sysSegments c)) := by
  simp only [computeDER, classifiedOf]
  rw [classifyLoop_spec]
  simp

/-- Error-time projections of `computeDER` through the classification loop. -/
theorem errorTimes_eq (refSegments sysSegments : List Segment) (c : ℚ) :
    missedSpeechTime refSegments sysSegments c =
      (((sweepOf refSegments sysSegments c).ivs).map msTime).sum ∧
    falseAlarmTime refSegments sysSegments c =
      (((sweepOf refSegments sysSegments c).ivs).map faTime).sum ∧
    speakerErrorTime refSegments sysSegments c =
      (((sweepOf refSegments sysSegments c).ivs).map
        (serTime (speakerMapping refSegments sysSegments c))).sum := by
  refine ⟨?_, ?_, ?_⟩ <;>
    · simp only [missedSpeechTime, falseAlarmTime, speakerErrorTime, classifiedOf]
      rw [classifyLoop_spec]
      simp

/-- Structure of the full sweep from the initial state. -/
theorem sweepOf_spec (refSegments sysSegments : List Segment) (c : ℚ) :
    ((sweepOf refSegments sysSegments c).ivs).map (fun iv => (iv.start, iv.«end»)) =
      pairsOf (timesOf refSegments sysSegments c) ∧
    (∀ iv ∈ (sweepOf refSegments sysSegments c).ivs, iv.type = .OK) ∧
    (sweepOf refSegments sysSegments c).scored =
      ivScored (sweepOf refSegments sysSegments c).ivs := by
  obtain ⟨new, h1, h2, h3, h4, _⟩ :=
    sweepLoop_main (timesOf refSegments sysSegments c)
      ⟨adjusted refSegments c, adjusted sysSegments c, [], [], [], [], 0⟩
  have hivs : (sweepOf refSegments sysSegments c).ivs = new := by
    simpa [sweepOf] using h1
  refine ⟨?_, ?_, ?_⟩
  · rw [hivs, h2]
  · rw [hivs]
    exact h3
  · have : (sweepOf refSegments sysSegments c).scored = 0 + ivScored new := by
      simpa [sweepOf] using h4
    rw [hivs, this, zero_add]

/-- `hasCorrectMapping` unfolded to an existential: some system speaker of
the interval is mapped to a non-empty reference speaker id present in the
interval's reference set. -/
theorem hasCorrectMapping_iff (m : List (String × String)) (iv : ErrorInterval) :
    hasCorrectMapping m iv = true ↔
      ∃ s ∈ iv.sys, ∃ r, m.lookup s = some r ∧ r ≠ "" ∧ r ∈ iv.ref := by
  simp only [hasCorrectMapping, List.any_eq_true]
  constructor
  · rintro ⟨s, hs, hmatch⟩
    rcases hlk : m.lookup s with _ | r
    · rw [hlk] at hmatch
      simp at hmatch
    · rw [hlk] at hmatch
      simp at hmatch
      exact ⟨s, hs, r, hlk, hmatch.1, hmatch.2⟩
  · rintro ⟨s, hs, r, hlk, hne, hmem⟩
    refine ⟨s, hs, ?_⟩
    rw [hlk]
    simp [hne, hmem]

/-- **C1 (amended)** — Classification of every returned interval: `MS` when
only the reference set is non-empty, `FA` when only the system set is
non-empty, `OK` when both are empty; when both are non-empty the type is
`OK` exactly when some system speaker of the interval is mapped to a
reference speaker of the interval *whose id is a non-empty string* (the JS
truthiness test `mappedRefSpk && ...` drops an empty-string mapped id). -/
theorem computeDER_interval_classification (refSegments sysSegments : List Segment)
    (c : ℚ) :
    ∀ iv ∈ (computeDER refSegments sysSegments c).intervals,
      (iv.ref ≠ [] ∧ iv.sys = [] → iv.type = .MS) ∧
      (iv.ref = [] ∧ iv.sys ≠ [] → iv.type = .FA) ∧
      (iv.ref = [] ∧ iv.sys = [] → iv.type = .OK) ∧
      (iv.ref ≠ [] ∧ iv.sys ≠ [] →
        (iv.type = .OK ↔ ∃ s ∈ iv.sys,
          ∃ r, (speakerMapping refSegments sysSegments c).lookup s = some r ∧
            r ≠ "" ∧ r ∈ iv.ref)) := by
  intro iv hiv
  rw [computeDER_intervals] at hiv
  obtain ⟨iv0, hiv0, hconv⟩ := List.mem_map.mp hiv
  have htype0 : iv0.type = .OK := (sweepOf_spec refSegments sysSegments c).2.1 iv0 hiv0
  subst hconv
  set m := speakerMapping refSegments sysSegments c with hm
  have href : (applyClass m iv0).ref = iv0.ref := by
    simp [applyClass]
    split_ifs <;> rfl
  have hsys : (applyClass m iv0).sys = iv0.sys := by
    simp [applyClass]
    split_ifs <;> rfl
  rw [href, hsys]
  refine ⟨fun h1 => ?_, fun h2 => ?_, fun h0 => ?_, fun h3 => ?_⟩
  · simp [applyClass, h1]
  · have h1 : ¬ (iv0.ref ≠ [] ∧ iv0.sys = []) := fun h => h.1 h2.1
    simp [applyClass, h1, h2]
  · have h1 : ¬ (iv0.ref ≠ [] ∧ iv0.sys = []) := fun h => h.1 h0.1
    have h2 : ¬ (iv0.ref = [] ∧ iv0.sys ≠ []) := fun h => h.2 h0.2
    have h3 : ¬ (iv0.ref ≠ [] ∧ iv0.sys ≠ []) := fun h => h.1 h0.1
    simp [applyClass, h1, h2, h3, htype0]
  · have h1 : ¬ (iv0.ref ≠ [] ∧ iv0.sys = []) := fun h => h3.2 h.2
    have h2 : ¬ (iv0.ref = [] ∧ iv0.sys ≠ []) := fun h => h3.1 h.1
    rcases Decidable.em (hasCorrectMapping m iv0 = true) with h4 | h4
    · have : applyClass m iv0 = { iv0 with type := .OK } := by
        simp [applyClass, h1, h2, h3, h4]
      rw [this]
      simpa using (hasCorrectMapping_iff m iv0).mp h4
    · have : applyClass m iv0 = { iv0 with type := .SER } := by
        simp [applyClass, h1, h2, h3, h4]
      rw [this]
      constructor
      · intro h
        exact absurd h (by simp)
      · intro hex
        exact absurd ((hasCorrectMapping_iff m iv0).mpr hex) h4

/-- Counterexample to the unamended C1: with an empty-string reference
speaker id, the single interval has non-empty reference and system sets and
the (unique) system speaker is mapped into the reference set, yet the
interval is typed `SER`, not `OK`. -/
theorem truthiness_counterexample :
    ((computeDER [⟨"r", "", 0, 10⟩] [⟨"s", "X", 0, 10⟩] 0).intervals.map
      (fun iv => (iv.type, iv.ref, iv.sys)) = [(.SER, [""], ["X"])]) ∧
    (speakerMapping [⟨"r", "", 0, 10⟩] [⟨"s", "X", 0, 10⟩] 0).lookup
      ("X" : String) = some ("") := by
  constructor <;>
  norm_num [computeDER, classifiedOf, speakerMapping, sweepOf, timesOf, boundariesOf,
    adjusted, sortByStart, applyCollar, List.insertionSort, List.orderedInsert,
    List.dedup_cons_of_mem, List.dedup_cons_of_not_mem, sweepLoop, sweepStep,
    getSpeakerSet, insertUniq, addAllOverlaps, addOverlap, updInner,
    mappingPairsOf, sortPairs, greedyLoop, classifyLoop, hasCorrectMapping,
    missedSpeechTime, falseAlarmTime, speakerErrorTime, scoredSpeechTime,
    List.lookup, max_def]

/-- Witness for the amended C1 at a concrete input: a pure missed-speech
interval is typed `MS`. -/
theorem computeDER_interval_classification_witness :
    (⟨0, 10, .MS, ["A"], []⟩ : ErrorInterval).type = .MS := by
  have h : (computeDER [⟨"i", "A", 0, 10⟩] [] 0).intervals =
      [⟨0, 10, .MS, ["A"], []⟩] := by
    norm_num [computeDER, classifiedOf, speakerMapping, sweepOf, timesOf, boundariesOf,
    adjusted, sortByStart, applyCollar, List.insertionSort, List.orderedInsert,
    List.dedup_cons_of_mem, List.dedup_cons_of_not_mem, sweepLoop, sweepStep,
    getSpeakerSet, insertUniq, addAllOverlaps, addOverlap, updInner,
    mappingPairsOf, sortPairs, greedyLoop, classifyLoop, hasCorrectMapping,
    missedSpeechTime, falseAlarmTime, speakerErrorTime, scoredSpeechTime,
    List.lookup, max_def]
  have hmem : (⟨0, 10, .MS, ["A"], []⟩ : ErrorInterval) ∈
      (computeDER [⟨"i", "A", 0, 10⟩] [] 0).intervals := by
    rw [h]
    exact List.mem_singleton.mpr rfl
  exact (computeDER_interval_classification [⟨"i", "A", 0, 10⟩] [] 0 _ hmem).1
    ⟨by decide, rfl⟩

/-! ## Total miss (claim C6) -/

theorem adjusted_nil (c : ℚ) : adjusted [] c = [] := by
  simp [adjusted, sortByStart, applyCollar, List.insertionSort]

/-- Counterexample to the unamended C6: a non-empty reference consisting of
a single zero-length segment has zero scored speech time, so `MS = 0`,
not `100`. -/
theorem total_miss_counterexample :
    (computeDER [⟨"i", "A", 0, 0⟩] [] 0).metrics.MS ≠ 100 := by
  have h : (computeDER [⟨"i", "A", 0, 0⟩] [] 0).metrics.MS = 0 := by
    norm_num [computeDER, classifiedOf, speakerMapping, sweepOf, timesOf, boundariesOf,
    adjusted, sortByStart, applyCollar, List.insertionSort, List.orderedInsert,
    List.dedup_cons_of_mem, List.dedup_cons_of_not_mem, sweepLoop, sweepStep,
    getSpeakerSet, insertUniq, addAllOverlaps, addOverlap, updInner,
    mappingPairsOf, sortPairs, greedyLoop, classifyLoop, hasCorrectMapping,
    missedSpeechTime, falseAlarmTime, speakerErrorTime, scoredSpeechTime,
    List.lookup, max_def]
  rw [h]
  norm_num

/-- **C6 (amended)** — With an empty system list, `FA = SER = 0` always,
and `MS = 100` provided the scored speech time is positive (a non-empty
reference whose segments all have zero scored duration yields `MS = 0`
instead, because all metrics are zeroed when the scored time is zero). -/
theorem computeDER_total_miss (refSegments : List Segment) (c : ℚ)
    (h : refSegments ≠ []) :
    (computeDER refSegments [] c).metrics.FA = 0 ∧
    (computeDER refSegments [] c).metrics.SER = 0 ∧
    (0 < (computeDER refSegments [] c).metrics.scored →
      (computeDER refSegments [] c).metrics.MS = 100) := by
  have hsys : ∀ iv ∈ (sweepOf refSegments [] c).ivs, iv.sys = [] := by
    obtain ⟨new, h1, _, _, _, h5⟩ := sweepLoop_main (timesOf refSegments [] c)
      ⟨adjusted refSegments c, adjusted [] c, [], [], [], [], 0⟩
    intro iv hiv
    have hn : (sweepOf refSegments [] c).ivs = new := by
      simpa [sweepOf] using h1
    exact h5 (by simp [adjusted_nil]) iv (hn ▸ hiv)
  have hfa : falseAlarmTime refSegments [] c = 0 := by
    rw [(errorTimes_eq refSegments [] c).2.1]
    apply List.sum_eq_zero
    intro x hx
    obtain ⟨iv, hiv, hx⟩ := List.mem_map.mp hx
    rw [← hx]
    simp [faTime, hsys iv hiv]
  have hser : speakerErrorTime refSegments [] c = 0 := by
    rw [(errorTimes_eq refSegments [] c).2.2]
    apply List.sum_eq_zero
    intro x hx
    obtain ⟨iv, hiv, hx⟩ := List.mem_map.mp hx
    rw [← hx]
    simp [serTime, hsys iv hiv]
  have hms : missedSpeechTime refSegments [] c = scoredSpeechTime refSegments [] c := by
    rw [(errorTimes_eq refSegments [] c).1]
    have hsc : scoredSpeechTime refSegments [] c =
        ivScored (sweepOf refSegments [] c).ivs :=
      (sweepOf_spec refSegments [] c).2.2
    rw [hsc, ivScored]
    congr 1
    apply List.map_congr_left
    intro iv hiv
    simp [msTime, hsys iv hiv]
  refine ⟨?_, ?_, fun hpos => ?_⟩
  · simp only [computeDER]
    split_ifs <;> simp [hfa]
  · simp only [computeDER]
    split_ifs <;> simp [hser]
  · have hpos' : 0 < scoredSpeechTime refSegments [] c := by
      simpa [computeDER] using hpos
    simp only [computeDER, hpos', if_pos, hms]
    field_simp

/-- Witness for the amended C6 at a concrete input. -/
theorem computeDER_total_miss_witness :
    (computeDER [⟨"i", "A", 0, 10⟩] [] 0).metrics.FA = 0 ∧
      (computeDER [⟨"i", "A", 0, 10⟩] [] 0).metrics.MS = 100 := by
  have hsc : (computeDER [⟨"i", "A", 0, 10⟩] [] 0).metrics.scored = 10 := by
    norm_num [computeDER, classifiedOf, speakerMapping, sweepOf, timesOf, boundariesOf,
    adjusted, sortByStart, applyCollar, List.insertionSort, List.orderedInsert,
    List.dedup_cons_of_mem, List.dedup_cons_of_not_mem, sweepLoop, sweepStep,
    getSpeakerSet, insertUniq, addAllOverlaps, addOverlap, updInner,
    mappingPairsOf, sortPairs, greedyLoop, classifyLoop, hasCorrectMapping,
    missedSpeechTime, falseAlarmTime, speakerErrorTime, scoredSpeechTime,
    List.lookup, max_def]
  exact ⟨(computeDER_total_miss _ 0 (by simp)).1,
    (computeDER_total_miss _ 0 (by simp)).2.2 (by rw [hsc]; norm_num)⟩

/-! ## The greedy speaker mapping (claim C5) -/

theorem lookup_eq_some_iff {α β : Type} [BEq α] [LawfulBEq α] :
    ∀ (l : List (α × β)), (l.map Prod.fst).Nodup → ∀ (k : α) (v : β),
      (l.lookup k = some v ↔ (k, v) ∈ l)
  | [], _, k, v => by simp [List.lookup]
  | (a, b) :: t, h, k, v => by
    rw [List.map_cons] at h
    have hn := List.nodup_cons.mp h
    rcases Classical.em (k = a) with he | he
    · subst he
      simp only [List.lookup, beq_self_eq_true]
      constructor
      · intro hv
        have hvb : b = v := by simpa using hv
        subst hvb
        exact List.mem_cons_self _ _
      · intro hv
        rcases List.mem_cons.mp hv with h1 | h1
        · have hvb : v = b := ((Prod.mk.injEq _ _ _ _).mp h1).2
          simp [hvb]
        · exact absurd (List.mem_map.mpr ⟨(k, v), h1, rfl⟩) hn.1
    · have hb : (k == a) = false := beq_eq_false_iff_ne.mpr he
      simp only [List.lookup, hb]
      rw [lookup_eq_some_iff t hn.2 k v]
      constructor
      · exact fun h1 => List.mem_cons_of_mem _ h1
      · intro h1
        rcases List.mem_cons.mp h1 with h2 | h2
        · exact absurd (congrArg Prod.fst h2) he
        · exact h2

theorem lookup_eq_none_iff {α β : Type} [BEq α] [LawfulBEq α] :
    ∀ (l : List (α × β)) (k : α), (l.lookup k = none ↔ k ∉ l.map Prod.fst)
  | [], k => by simp [List.lookup]
  | (a, b) :: t, k => by
    rcases Classical.em (k = a) with he | he
    · subst he
      simp [List.lookup]
    · have hb : (k == a) = false := beq_eq_false_iff_ne.mpr he
      simp only [List.lookup, hb]
      rw [lookup_eq_none_iff t k]
      simp [he]

theorem updInner_keys (m : List (String × ℚ)) (s : String) (d : ℚ) :
    (updInner m s d).map Prod.fst =
      if s ∈ m.map Prod.fst then m.map Prod.fst else m.map Prod.fst ++ [s] := by
  induction m with
  | nil => simp [updInner]
  | cons p t ih =>
    obtain ⟨a, v⟩ := p
    rcases Classical.em (a = s) with he | he
    · subst he
      simp [updInner]
    · simp only [updInner, if_neg he, List.map_cons, ih]
      rcases Classical.em (s ∈ t.map Prod.fst) with hm | hm
      · simp [hm, Ne.symm he]
      · simp [hm, Ne.symm he]

theorem addOverlap_keys (ov : List (String × List (String × ℚ)))
    (refSpk sysSpk : String) (d : ℚ) :
    (addOverlap ov refSpk sysSpk d).map Prod.fst =
      if refSpk ∈ ov.map Prod.fst then ov.map Prod.fst
      else ov.map Prod.fst ++ [refSpk] := by
  induction ov with
  | nil => simp [addOverlap]
  | cons p t ih =>
    obtain ⟨a, m⟩ := p
    rcases Classical.em (a = refSpk) with he | he
    · subst he
      simp [addOverlap]
    · simp only [addOverlap, if_neg he, List.map_cons, ih]
      rcases Classical.em (refSpk ∈ t.map Prod.fst) with hm | hm
      · simp [hm, Ne.symm he]
      · simp [hm, Ne.symm he]

theorem addOverlap_wf (ov : List (String × List (String × ℚ)))
    (refSpk sysSpk : String) (d : ℚ) (h : ovWF ov) :
    ovWF (addOverlap ov refSpk sysSpk d) := by
  obtain ⟨h1, h2⟩ := h
  constructor
  · rw [addOverlap_keys]
    rcases Classical.em (refSpk ∈ ov.map Prod.fst) with hm | hm
    · simpa [hm] using h1
    · simp only [if_neg hm]
      simpa [List.nodup_append, hm] using h1
  · intro p hp
    induction ov with
    | nil =>
      simp [addOverlap] at hp
      simp [hp]
    | cons q t ih =>
      obtain ⟨a, m⟩ := q
      rcases Classical.em (a = refSpk) with he | he
      · subst he
        simp only [addOverlap, if_pos rfl] at hp
        rcases List.mem_cons.mp hp with hq | hq
        · have hmn : (m.map Prod.fst).Nodup := h2 (a, m) (List.mem_cons_self _ _)
          rw [hq]
          rw [updInner_keys]
          rcases Classical.em (sysSpk ∈ m.map Prod.fst) with hs | hs
          · simpa [hs] using hmn
          · simp only [if_neg hs]
            simpa [List.nodup_append, hs] using hmn
        · exact h2 p (List.mem_cons_of_mem _ hq)
      · simp only [addOverlap, if_neg he] at hp
        rcases List.mem_cons.mp hp with hq | hq
        · rw [hq]
          exact h2 (a, m) (List.mem_cons_self _ _)
        · have h1t : (t.map Prod.fst).Nodup := by
            rw [List.map_cons] at h1
            exact (List.nodup_cons.mp h1).2
          exact ih h1t (fun q hq2 => h2 q (List.mem_cons_of_mem _ hq2)) hq

theorem addAllOverlaps_wf (refSpeakers sysSpeakers : List String) (d : ℚ) :
    ∀ ov, ovWF ov → ovWF (addAllOverlaps ov refSpeakers sysSpeakers d) := by
  have inner : ∀ (ss : List String) (ov : List (String × List (String × ℚ)))
      (r : String), ovWF ov →
      ovWF (ss.foldl (fun acc2 sysSpk => addOverlap acc2 r sysSpk d) ov) := by
    intro ss
    induction ss with
    | nil => intro ov r h; exact h
    | cons s t ih =>
      intro ov r h
      exact ih _ r (addOverlap_wf ov r s d h)
  intro ov h
  unfold addAllOverlaps
  induction refSpeakers generalizing ov with
  | nil => exact h
  | cons r t ih =>
    simp only [List.foldl_cons]
    exact ih _ (inner sysSpeakers ov r h)

theorem sweepLoop_wf : ∀ (T : List ℚ) (st : SweepState), ovWF st.ov →
    ovWF (sweepLoop st T).ov
  | [], st, h => h
  | [t], st, h => h
  | t0 :: t1 :: rest, st, h => by
    have hstep : ovWF (sweepStep st t0 t1).ov := by
      simp only [sweepStep]
      rcases Classical.em (getSpeakerSet ((st.refAct ++ st.refRem.takeWhile
          (fun s => s.start ≤ t0)).filter (fun s => t0 < s.«end»)) ≠ [] ∧
        getSpeakerSet ((st.sysAct ++ st.sysRem.takeWhile
          (fun s => s.start ≤ t0)).filter (fun s => t0 < s.«end»)) ≠ []) with hc | hc
      · rw [if_pos hc]
        exact addAllOverlaps_wf _ _ _ _ h
      · rw [if_neg hc]
        exact h
    exact sweepLoop_wf (t1 :: rest) (sweepStep st t0 t1) hstep

theorem overlapTable_wf (refSegments sysSegments : List Segment) (c : ℚ) :
    ovWF (overlapTable refSegments sysSegments c) :=
  sweepLoop_wf _ _ (by constructor <;> simp)

/-- Membership in the flattened pair list is exactly a double table lookup
(for a well-formed table). -/
theorem mem_mappingPairsOf_iff (ov : List (String × List (String × ℚ)))
    (h : ovWF ov) (r s : String) (d : ℚ) :
    (r, s, d) ∈ mappingPairsOf ov ↔ ovLookup ov r s = some d := by
  constructor
  · intro hm
    obtain ⟨⟨r', m⟩, hp, hq⟩ := List.mem_flatMap.mp hm
    obtain ⟨⟨s', d'⟩, hq1, hq2⟩ := List.mem_map.mp hq
    simp only [Prod.mk.injEq] at hq2
    obtain ⟨rfl, rfl, rfl⟩ := hq2
    have hl1 : ov.lookup r' = some m := (lookup_eq_some_iff ov h.1 r' m).mpr hp
    have hl2 : m.lookup s' = some d' :=
      (lookup_eq_some_iff m (h.2 (r', m) hp) s' d').mpr hq1
    simp [ovLookup, hl1, hl2]
  · intro hl
    simp only [ovLookup, Option.bind_eq_some] at hl
    obtain ⟨m, hl1, hl2⟩ := hl
    have hp : (r, m) ∈ ov := (lookup_eq_some_iff ov h.1 r m).mp hl1
    have hq : (s, d) ∈ m := (lookup_eq_some_iff m (h.2 (r, m) hp) s d).mp hl2
    exact List.mem_flatMap.mpr ⟨(r, m), hp, List.mem_map.mpr ⟨(s, d), hq, rfl⟩⟩

/-- Invariants of the greedy assignment loop: duplicate-free keys and
values, and every committed pair stems from a positive-duration input
triple (or was already present). -/
theorem greedyLoop_spec : ∀ (ps : List (String × String × ℚ))
    (usedRef usedSys : List String) (m : List (String × String)),
    m.map Prod.fst = usedSys → m.map Prod.snd = usedRef →
    usedSys.Nodup → usedRef.Nodup →
    ((greedyLoop ps usedRef usedSys m).map Prod.fst).Nodup ∧
    ((greedyLoop ps usedRef usedSys m).map Prod.snd).Nodup ∧
    (∀ p ∈ greedyLoop ps usedRef usedSys m,
      p ∈ m ∨ ∃ d, (p.2, p.1, d) ∈ ps ∧ 0 < d)
  | [], usedRef, usedSys, m, h1, h2, h3, h4 => by
    simp only [greedyLoop]
    exact ⟨by rw [h1]; exact h3, by rw [h2]; exact h4, fun p hp => Or.inl hp⟩
  | (r, s, d) :: rest, usedRef, usedSys, m, h1, h2, h3, h4 => by
    rcases Classical.em (d ≤ 0) with hd | hd
    · have := greedyLoop_spec rest usedRef usedSys m h1 h2 h3 h4
      simp only [greedyLoop, if_pos hd]
      refine ⟨this.1, this.2.1, fun p hp => ?_⟩
      rcases this.2.2 p hp with h | ⟨d', hd1, hd2⟩
      · exact Or.inl h
      · exact Or.inr ⟨d', List.mem_cons_of_mem _ hd1, hd2⟩
    · rcases Classical.em (r ∈ usedRef ∨ s ∈ usedSys) with hu | hu
      · have := greedyLoop_spec rest usedRef usedSys m h1 h2 h3 h4
        simp only [greedyLoop, if_neg hd, if_pos hu]
        refine ⟨this.1, this.2.1, fun p hp => ?_⟩
        rcases this.2.2 p hp with h | ⟨d', hd1, hd2⟩
        · exact Or.inl h
        · exact Or.inr ⟨d', List.mem_cons_of_mem _ hd1, hd2⟩
      · have h1' : (m ++ [(s, r)]).map Prod.fst = usedSys ++ [s] := by
          simp [h1]
        have h2' : (m ++ [(s, r)]).map Prod.snd = usedRef ++ [r] := by
          simp [h2]
        have h3' : (usedSys ++ [s]).Nodup := by
          rw [List.nodup_append]
          refine ⟨h3, List.nodup_singleton s, ?_⟩
          intro a ha hb
          rcases List.mem_singleton.mp hb with rfl
          exact hu (Or.inr ha)
        have h4' : (usedRef ++ [r]).Nodup := by
          rw [List.nodup_append]
          refine ⟨h4, List.nodup_singleton r, ?_⟩
          intro a ha hb
          rcases List.mem_singleton.mp hb with rfl
          exact hu (Or.inl ha)
        have := greedyLoop_spec rest (usedRef ++ [r]) (usedSys ++ [s])
          (m ++ [(s, r)]) h1' h2' h3' h4'
        simp only [greedyLoop, if_neg hd, if_neg hu]
        refine ⟨this.1, this.2.1, fun p hp => ?_⟩
        rcases this.2.2 p hp with h | ⟨d', hd1, hd2⟩
        · rcases List.mem_append.mp h with h' | h'
          · exact Or.inl h'
          · rcases List.mem_singleton.mp h' with rfl
            exact Or.inr ⟨d, List.mem_cons_self _ _, lt_of_not_le hd⟩
        · exact Or.inr ⟨d', List.mem_cons_of_mem _ hd1, hd2⟩

theorem snd_nodup_inj {α β : Type} : ∀ (l : List (α × β)),
    (l.map Prod.snd).Nodup → ∀ (a1 a2 : α) (b : β),
      (a1, b) ∈ l → (a2, b) ∈ l → a1 = a2
  | [], _, a1, a2, b, h1, _ => by simp at h1
  | (x, y) :: t, h, a1, a2, b, h1, h2 => by
    rw [List.map_cons] at h
    have hn := List.nodup_cons.mp h
    rcases List.mem_cons.mp h1 with e1 | e1 <;> rcases List.mem_cons.mp h2 with e2 | e2
    · rw [show a1 = x from congrArg Prod.fst e1, show a2 = x from congrArg Prod.fst e2]
    · exfalso
      apply hn.1
      have hb : b = y := by simpa using congrArg Prod.snd e1
      exact List.mem_map.mpr ⟨(a2, b), e2, by simp [hb]⟩
    · exfalso
      apply hn.1
      have hb : b = y := by simpa using congrArg Prod.snd e2
      exact List.mem_map.mpr ⟨(a1, b), e1, by simp [hb]⟩
    · exact snd_nodup_inj t hn.2 a1 a2 b e1 e2

/-- **C5** — The speaker mapping is a partial injective function from
system speaker ids to reference speaker ids: duplicate-free keys (each
system speaker is mapped at most once), injectivity (no reference speaker
is the image of two system speakers), every mapped pair has strictly
positive accumulated overlap in the table, and a speaker all of whose table
entries are non-positive (or absent) is left unmapped, on either side. -/
theorem speakerMapping_spec (refSegments sysSegments : List Segment) (c : ℚ) :
    (((speakerMapping refSegments sysSegments c).map Prod.fst).Nodup) ∧
    (∀ s1 s2 r, (speakerMapping refSegments sysSegments c).lookup s1 = some r →
      (speakerMapping refSegments sysSegments c).lookup s2 = some r → s1 = s2) ∧
    (∀ s r, (speakerMapping refSegments sysSegments c).lookup s = some r →
      ∃ d, ovLookup (overlapTable refSegments sysSegments c) r s = some d ∧ 0 < d) ∧
    (∀ s, (∀ r d, ovLookup (overlapTable refSegments sysSegments c) r s = some d →
        d ≤ 0) →
      (speakerMapping refSegments sysSegments c).lookup s = none) ∧
    (∀ r, (∀ s d, ovLookup (overlapTable refSegments sysSegments c) r s = some d →
        d ≤ 0) →
      ∀ s, (speakerMapping refSegments sysSegments c).lookup s ≠ some r) := by
  have hg := greedyLoop_spec
    (sortPairs (mappingPairsOf (overlapTable refSegments sysSegments c))) [] [] []
    rfl rfl List.nodup_nil List.nodup_nil
  have hM : speakerMapping refSegments sysSegments c =
      greedyLoop (sortPairs (mappingPairsOf (overlapTable refSegments sysSegments c)))
        [] [] [] := by
    simp [speakerMapping, overlapTable]
  have hkeys := hM ▸ hg.1
  have hvals := hM ▸ hg.2.1
  have horigin : ∀ p ∈ speakerMapping refSegments sysSegments c,
      ∃ d, ovLookup (overlapTable refSegments sysSegments c) p.2 p.1 = some d ∧
        0 < d := by
    intro p hp
    rcases hg.2.2 p (hM ▸ hp) with h | ⟨d, hd1, hd2⟩
    · simp at h
    · have hmem : (p.2, p.1, d) ∈
          mappingPairsOf (overlapTable refSegments sysSegments c) :=
        (List.perm_insertionSort byDurationDesc _).mem_iff.mp hd1
      exact ⟨d, (mem_mappingPairsOf_iff _
        (overlapTable_wf refSegments sysSegments c) _ _ _).mp hmem, hd2⟩
  have hpos : ∀ s r, (speakerMapping refSegments sysSegments c).lookup s = some r →
      ∃ d, ovLookup (overlapTable refSegments sysSegments c) r s = some d ∧ 0 < d := by
    intro s r hl
    have hmem : (s, r) ∈ speakerMapping refSegments sysSegments c :=
      (lookup_eq_some_iff _ hkeys s r).mp hl
    exact horigin (s, r) hmem
  refine ⟨hkeys, ?_, hpos, ?_, ?_⟩
  · intro s1 s2 r hl1 hl2
    exact snd_nodup_inj _ hvals s1 s2 r
      ((lookup_eq_some_iff _ hkeys s1 r).mp hl1)
      ((lookup_eq_some_iff _ hkeys s2 r).mp hl2)
  · intro s hall
    rcases hl : (speakerMapping refSegments sysSegments c).lookup s with _ | r
    · rfl
    · obtain ⟨d, hd1, hd2⟩ := hpos s r hl
      exact absurd (hall r d hd1) (not_le.mpr hd2)
  · intro r hall s hl
    obtain ⟨d, hd1, hd2⟩ := hpos s r hl
    exact absurd (hall s d hd1) (not_le.mpr hd2)

/-- Witness for C5 at a concrete input: system speaker `1` is mapped to
reference speaker `A` and this pair indeed has positive accumulated
overlap. -/
theorem speakerMapping_spec_witness :
    (speakerMapping [⟨"i", "A", 0, 10⟩] [⟨"j", "1", 0, 10⟩] 0).lookup
        ("1" : String) = some ("A") ∧
      ∃ d, ovLookup (overlapTable [⟨"i", "A", 0, 10⟩] [⟨"j", "1", 0, 10⟩] 0)
        ("A" : String) ("1" : String) = some d ∧ 0 < d := by
  have hl : (speakerMapping [⟨"i", "A", 0, 10⟩] [⟨"j", "1", 0, 10⟩] 0).lookup
      ("1" : String) = some ("A") := by
    norm_num [computeDER, classifiedOf, speakerMapping, sweepOf, timesOf,
      boundariesOf, adjusted, sortByStart, applyCollar, List.insertionSort,
      List.orderedInsert, List.dedup_cons_of_mem, List.dedup_cons_of_not_mem,
      sweepLoop, sweepStep, getSpeakerSet, insertUniq, addAllOverlaps,
      addOverlap, updInner, mappingPairsOf, sortPairs, greedyLoop, List.lookup,
      max_def]
  exact ⟨hl, (speakerMapping_spec [⟨"i", "A", 0, 10⟩] [⟨"j", "1", 0, 10⟩] 0).2.2.1
    ("1" : String) ("A" : String) hl⟩

/-! ## The partition invariant (claim C2) -/

theorem timesOf_sorted (refSegments sysSegments : List Segment) (c : ℚ) :
    List.Sorted (· ≤ ·) (timesOf refSegments sysSegments c) :=
  List.sorted_insertionSort _ _

theorem timesOf_nodup (refSegments sysSegments : List Segment) (c : ℚ) :
    (timesOf refSegments sysSegments c).Nodup :=
  (List.perm_insertionSort _ _).nodup_iff.mpr (List.nodup_dedup _)

theorem timesOf_pairwise_lt (refSegments sysSegments : List Segment) (c : ℚ) :
    (timesOf refSegments sysSegments c).Pairwise (· < ·) := by
  have h := (timesOf_sorted refSegments sysSegments c).and
    (timesOf_nodup refSegments sysSegments c)
  exact h.imp fun hab => lt_of_le_of_ne hab.1 hab.2

theorem mem_timesOf_iff (refSegments sysSegments : List Segment) (c : ℚ) (x : ℚ) :
    x ∈ timesOf refSegments sysSegments c ↔
      x ∈ boundariesOf refSegments sysSegments c := by
  unfold timesOf
  rw [(List.perm_insertionSort (· ≤ ·) _).mem_iff]
  exact List.mem_dedup

theorem pairsOf_cons_cons (t0 t1 : ℚ) (rest : List ℚ) :
    pairsOf (t0 :: t1 :: rest) = (t0, t1) :: pairsOf (t1 :: rest) := rfl

theorem mem_pairsOf : ∀ (T : List ℚ) (p : ℚ × ℚ), p ∈ pairsOf T →
    p.1 ∈ T ∧ p.2 ∈ T
  | [], p, h => by simp [pairsOf] at h
  | [t], p, h => by simp [pairsOf] at h
  | t0 :: t1 :: rest, p, h => by
    rw [pairsOf_cons_cons] at h
    rcases List.mem_cons.mp h with h1 | h1
    · rw [h1]
      exact ⟨List.mem_cons_self _ _, List.mem_cons_of_mem _ (List.mem_cons_self _ _)⟩
    · have := mem_pairsOf (t1 :: rest) p h1
      exact ⟨List.mem_cons_of_mem _ this.1, List.mem_cons_of_mem _ this.2⟩

theorem pairsOf_pairwise_lt : ∀ (T : List ℚ), T.Pairwise (· < ·) →
    (pairsOf T).Pairwise (fun a b => a.1 < b.1)
  | [], _ => by simp [pairsOf]
  | [t], _ => by simp [pairsOf]
  | t0 :: t1 :: rest, h => by
    rw [pairsOf_cons_cons]
    refine List.pairwise_cons.mpr ⟨?_, pairsOf_pairwise_lt (t1 :: rest) (h.of_cons)⟩
    intro p hp
    have hmem := (mem_pairsOf (t1 :: rest) p hp).1
    exact (List.pairwise_cons.mp h).1 p.1 hmem

theorem pairsOf_chain : ∀ (T : List ℚ),
    (pairsOf T).Chain' (fun a b => a.2 = b.1)
  | [] => by simp [pairsOf]
  | [t] => by simp [pairsOf]
  | t0 :: t1 :: rest => by
    rw [pairsOf_cons_cons]
    rcases rest with _ | ⟨t2, rest'⟩
    · simp [pairsOf]
    · rw [pairsOf_cons_cons]
      exact List.Chain'.cons rfl (by
        have := pairsOf_chain (t1 :: t2 :: rest')
        rwa [pairsOf_cons_cons] at this)

theorem pairsOf_cover : ∀ (T : List ℚ), T.Pairwise (· ≤ ·) → ∀ (x : ℚ),
    ((∃ p ∈ pairsOf T, p.1 ≤ x ∧ x < p.2) ↔
      (∃ b ∈ T, b ≤ x) ∧ (∃ b ∈ T, x < b))
  | [], _, x => by simp [pairsOf]
  | [t], _, x => by
    simp only [pairsOf]
    constructor
    · intro h
      simp at h
    · rintro ⟨⟨b, hb, hbx⟩, ⟨b', hb', hb'x⟩⟩
      rcases List.mem_singleton.mp hb with rfl
      rcases List.mem_singleton.mp hb' with rfl
      exact absurd (lt_of_le_of_lt hbx hb'x) (lt_irrefl _)
  | t0 :: t1 :: rest, h, x => by
    have hsorted01 : t0 ≤ t1 := (List.pairwise_cons.mp h).1 t1
      (List.mem_cons_self _ _)
    constructor
    · rintro ⟨p, hp, hle, hlt⟩
      have hmem := mem_pairsOf _ p hp
      exact ⟨⟨p.1, hmem.1, hle⟩, ⟨p.2, hmem.2, hlt⟩⟩
    · rintro ⟨⟨b, hb, hbx⟩, ⟨b', hb', hb'x⟩⟩
      rcases Classical.em (x < t1) with hx1 | hx1
      · have ht0 : t0 ≤ x := by
          rcases List.mem_cons.mp hb with rfl | hbt
          · exact hbx
          · have : t1 ≤ b := by
              rcases List.mem_cons.mp hbt with rfl | hbt'
              · exact le_refl _
              · exact (List.pairwise_cons.mp (h.of_cons)).1 b hbt'
            exact absurd hbx (not_le.mpr (lt_of_lt_of_le hx1 this))
        exact ⟨(t0, t1), by rw [pairsOf_cons_cons]; exact List.mem_cons_self _ _,
          ht0, hx1⟩
      · have hb'tail : b' ∈ t1 :: rest := by
          rcases List.mem_cons.mp hb' with rfl | hbt
          · exact absurd hb'x (not_lt.mpr (le_trans hsorted01 (not_lt.mp hx1)))
          · exact hbt
        obtain ⟨p, hp, hple, hplt⟩ := (pairsOf_cover (t1 :: rest) (h.of_cons) x).mpr
          ⟨⟨t1, List.mem_cons_self _ _, not_lt.mp hx1⟩, ⟨b', hb'tail, hb'x⟩⟩
        exact ⟨p, by rw [pairsOf_cons_cons]; exact List.mem_cons_of_mem _ hp,
          hple, hplt⟩

theorem pairsOf_eq_nil_iff (T : List ℚ) : pairsOf T = [] ↔ T.length < 2 := by
  rcases T with _ | ⟨t0, _ | ⟨t1, rest⟩⟩
  · simp [pairsOf]
  · simp [pairsOf]
  · rw [pairsOf_cons_cons]
    simp

theorem applyClass_startEnd (m : List (String × String)) (iv : ErrorInterval) :
    (applyClass m iv).start = iv.start ∧ (applyClass m iv).«end» = iv.«end» := by
  simp only [applyClass]
  split_ifs <;> exact ⟨rfl, rfl⟩

theorem computeDER_intervals_startEnd (refSegments sysSegments : List Segment)
    (c : ℚ) :
    (computeDER refSegments sysSegments c).intervals.map
        (fun iv => (iv.start, iv.«end»)) =
      pairsOf (timesOf refSegments sysSegments c) := by
  rw [computeDER_intervals, List.map_map]
  have he : ((fun iv => (iv.start, iv.«end»)) ∘
      applyClass (speakerMapping refSegments sysSegments c)) =
      fun iv : ErrorInterval => (iv.start, iv.«end») := by
    funext iv
    have := applyClass_startEnd (speakerMapping refSegments sysSegments c) iv
    simp [Function.comp, this.1, this.2]
  rw [he]
  exact (sweepOf_spec refSegments sysSegments c).1

/-- **C2** — Partition invariant of the returned intervals: strictly
ascending starts; each interval's end is the next interval's start; the
intervals cover exactly the half-open span from the smallest boundary value
to the largest (every boundary is finite in the rational model); and with
fewer than two distinct boundary values no interval is produced. -/
theorem computeDER_partition (refSegments sysSegments : List Segment) (c : ℚ) :
    ((computeDER refSegments sysSegments c).intervals.Pairwise
      (fun a b => a.start < b.start)) ∧
    ((computeDER refSegments sysSegments c).intervals.Chain'
      (fun a b => a.«end» = b.start)) ∧
    (∀ x : ℚ,
      (∃ iv ∈ (computeDER refSegments sysSegments c).intervals,
        iv.start ≤ x ∧ x < iv.«end») ↔
      ((∃ b ∈ boundariesOf refSegments sysSegments c, b ≤ x) ∧
        (∃ b ∈ boundariesOf refSegments sysSegments c, x < b))) ∧
    ((boundariesOf refSegments sysSegments c).dedup.length < 2 →
      (computeDER refSegments sysSegments c).intervals = []) := by
  have hmapped := computeDER_intervals_startEnd refSegments sysSegments c
  refine ⟨?_, ?_, ?_, ?_⟩
  · have hp := pairsOf_pairwise_lt _ (timesOf_pairwise_lt refSegments sysSegments c)
    rw [← hmapped] at hp
    have := List.pairwise_map.mp hp
    simpa using this
  · have hc := pairsOf_chain (timesOf refSegments sysSegments c)
    rw [← hmapped] at hc
    have := (List.chain'_map (fun iv : ErrorInterval => (iv.start, iv.«end»))).mp hc
    simpa using this
  · intro x
    have hcov := pairsOf_cover (timesOf refSegments sysSegments c)
      (timesOf_sorted refSegments sysSegments c) x
    rw [← hmapped] at hcov
    constructor
    · rintro ⟨iv, hiv, h1, h2⟩
      have hm : (iv.start, iv.«end») ∈
          (computeDER refSegments sysSegments c).intervals.map
            (fun iv => (iv.start, iv.«end»)) :=
        List.mem_map.mpr ⟨iv, hiv, rfl⟩
      obtain ⟨hb1, hb2⟩ := hcov.mp ⟨(iv.start, iv.«end»), hm, h1, h2⟩
      obtain ⟨b, hb, hbx⟩ := hb1
      obtain ⟨b', hb', hb'x⟩ := hb2
      exact ⟨⟨b, (mem_timesOf_iff refSegments sysSegments c b).mp hb, hbx⟩,
        ⟨b', (mem_timesOf_iff refSegments sysSegments c b').mp hb', hb'x⟩⟩
    · rintro ⟨⟨b, hb, hbx⟩, ⟨b', hb', hb'x⟩⟩
      obtain ⟨p, hp, h1, h2⟩ := hcov.mpr
        ⟨⟨b, (mem_timesOf_iff refSegments sysSegments c b).mpr hb, hbx⟩,
          ⟨b', (mem_timesOf_iff refSegments sysSegments c b').mpr hb', hb'x⟩⟩
      obtain ⟨iv, hiv, hconv⟩ := List.mem_map.mp hp
      refine ⟨iv, hiv, ?_, ?_⟩
      · rw [show iv.start = p.1 from by rw [← hconv]]
        exact h1
      · rw [show iv.«end» = p.2 from by rw [← hconv]]
        exact h2
  · intro hlen
    have hlen2 : (timesOf refSegments sysSegments c).length < 2 := by
      unfold timesOf
      rw [(List.perm_insertionSort (· ≤ ·)
        (boundariesOf refSegments sysSegments c).dedup).length_eq]
      exact hlen
    have hnil : pairsOf (timesOf refSegments sysSegments c) = [] :=
      (pairsOf_eq_nil_iff _).mpr hlen2
    rw [hnil] at hmapped
    exact List.map_eq_nil_iff.mp hmapped

/-- Witness for C2 at a concrete input. -/
theorem computeDER_partition_witness :
    (computeDER [⟨"i", "A", 0, 10⟩] [] 0).intervals.Chain'
        (fun a b => a.«end» = b.start) ∧
      (computeDER [] [] 0).intervals = [] := by
  refine ⟨(computeDER_partition [⟨"i", "A", 0, 10⟩] [] 0).2.1, ?_⟩
  apply (computeDER_partition [] [] 0).2.2.2
  norm_num [boundariesOf, adjusted, sortByStart, applyCollar, List.insertionSort]

/-! ## Parser fallback speaker id (claim C10) -/

theorem tokens_nil : tokens [] = [] := by simp [tokens, tokensAux]

theorem tokensAux_head : ∀ (cs cur : List Char), cur ≠ [] →
    ∃ tl rest', tokensAux cs cur = (cur.reverse ++ tl) :: rest'
  | [], cur, h => ⟨[], [], by simp [tokensAux, h]⟩
  | c :: cs, cur, h => by
    simp only [tokensAux]
    rcases Classical.em (c.isWhitespace = true) with hw | hw
    · rw [if_pos hw, if_neg h]
      exact ⟨[], tokensAux cs [], by simp⟩
    · rw [if_neg hw]
      obtain ⟨tl, rest', ih⟩ := tokensAux_head cs (c :: cur) (by simp)
      refine ⟨c :: tl, rest', ?_⟩
      rw [ih]
      simp

/-- **C10** — A line whose first token is `SPEAKER`, with parseable start
and strictly positive parseable duration, but with no (or an empty) 8th
field, is still emitted as a segment with the literal speaker id
`unknown` (the `fields[7] || 'unknown'` fallback). -/
theorem parseRTTMLine_default_speaker (line : List Char)
    (h0 : (tokens (trimWs line)).get? 0 = some ("SPEAKER".data))
    (st : ℚ) (h3 : ((tokens (trimWs line)).get? 3).bind parseFloatQ = some st)
    (d : ℚ) (h4 : ((tokens (trimWs line)).get? 4).bind parseFloatQ = some d)
    (hd : 0 < d)
    (h7 : (tokens (trimWs line)).get? 7 = none ∨
      (tokens (trimWs line)).get? 7 = some []) :
    ∃ seg, parseRTTMLine line = some seg ∧ seg.speakerId = "unknown" ∧
      seg.start = st ∧ seg.«end» = st + d := by
  have hne : trimWs line ≠ [] := by
    intro h
    rw [h, tokens_nil] at h0
    simp at h0
  have hsemi : ¬ (trimWs line).head? = some ';' := by
    intro hh
    obtain ⟨c, rest, hcr⟩ : ∃ c rest, trimWs line = c :: rest := by
      rcases htr : trimWs line with _ | ⟨c, rest⟩
      · exact absurd htr hne
      · exact ⟨c, rest, rfl⟩
    rw [hcr] at hh
    have hc : c = ';' := by simpa using hh
    subst hc
    rw [hcr] at h0
    have ht : tokens (';' :: rest) = tokensAux rest [';'] := by
      have hw : (';' : Char).isWhitespace = false := by decide
      simp [tokens, tokensAux, hw]
    rw [ht] at h0
    obtain ⟨tl, rest', htk⟩ := tokensAux_head rest [';'] (by simp)
    rw [htk] at h0
    rw [List.get?_cons_zero] at h0
    have h0' : [';'].reverse ++ tl = "SPEAKER".data := by simpa using h0
    have hch : (';' : Char) = 'S' := by
      simpa using congrArg List.head? h0'
    exact absurd hch (by decide)
  have hspk : speakerIdOfFields (tokens (trimWs line)) = "unknown" := by
    rcases h7 with h7 | h7 <;>
      · simp only [speakerIdOfFields]
        rw [h7]
        try simp
  have hparse : parseRTTMLine line = some
      { id := String.mk ((speakerIdOfFields (tokens (trimWs line))).data ++
          '_' :: toFixed3 st ++ '_' :: toFixed3 (st + d))
        speakerId := speakerIdOfFields (tokens (trimWs line))
        start := st
        «end» := st + d } := by
    simp only [parseRTTMLine]
    rw [if_neg hne, if_neg hsemi, if_neg (not_not_intro h0), h3, h4]
    simp [hd]
  exact ⟨_, hparse, hspk, rfl, rfl⟩

/-- Witness for C10 on a concrete 7-field line. -/
theorem parseRTTMLine_default_speaker_witness :
    ∃ seg, parseRTTMLine ("SPEAKER f 1 0.5 1.0 x y".data) = some seg ∧
      seg.speakerId = "unknown" ∧ seg.start = 1 / 2 ∧ seg.«end» = 1 / 2 + 1 := by
  refine parseRTTMLine_default_speaker _ ?_ (1 / 2) ?_ 1 ?_ (by norm_num) ?_
  · norm_num +decide [tokens, tokensAux, trimWs]
  · norm_num +decide [tokens, tokensAux, trimWs, parseFloatQ, parseFloatPos,
      takeDigits, digitVal, beVal, fracSplit, parseExpPart, expVal]
  · norm_num +decide [tokens, tokensAux, trimWs, parseFloatQ, parseFloatPos,
      takeDigits, digitVal, beVal, fracSplit, parseExpPart, expVal]
  · left
    norm_num +decide [tokens, tokensAux, trimWs]

/-! ## Scored speech time is determined by the reference (claim C3) -/

theorem takeWhile_eq_filter_of_sorted :
    ∀ (L : List Segment), L.Pairwise byStart → ∀ (t : ℚ),
      L.takeWhile (fun s => decide (s.start ≤ t)) =
        L.filter (fun s => decide (s.start ≤ t))
  | [], _, t => rfl
  | a :: l, h, t => by
    obtain ⟨h1, h2⟩ := List.pairwise_cons.mp h
    rcases Classical.em (a.start ≤ t) with ha | ha
    · simp only [List.takeWhile_cons, List.filter_cons, decide_eq_true ha]
      rw [takeWhile_eq_filter_of_sorted l h2 t]
      simp
    · have hd : decide (a.start ≤ t) = false := decide_eq_false ha
      simp only [List.takeWhile_cons, List.filter_cons, hd]
      symm
      simp only [Bool.false_eq_true, if_false]
      apply List.filter_eq_nil_iff.mpr
      intro s hs
      simp only [decide_eq_true_eq]
      intro hst
      exact ha (le_trans (h1 s hs) hst)

theorem dropWhile_eq_filter_of_sorted :
    ∀ (L : List Segment), L.Pairwise byStart → ∀ (t : ℚ),
      L.dropWhile (fun s => decide (s.start ≤ t)) =
        L.filter (fun s => !decide (s.start ≤ t))
  | [], _, t => rfl
  | a :: l, h, t => by
    obtain ⟨h1, h2⟩ := List.pairwise_cons.mp h
    rcases Classical.em (a.start ≤ t) with ha | ha
    · simp only [List.dropWhile_cons, List.filter_cons, decide_eq_true ha]
      rw [dropWhile_eq_filter_of_sorted l h2 t]
      simp
    · have hd : decide (a.start ≤ t) = false := decide_eq_false ha
      simp only [List.dropWhile_cons, List.filter_cons, hd]
      simp only [Bool.not_false, if_true, Bool.false_eq_true, if_false]
      symm
      rw [List.filter_eq_self.mpr]
      intro s hs
      simp only [Bool.not_eq_true', decide_eq_false_iff_not]
      intro hst
      exact ha (le_trans (h1 s hs) hst)

theorem filter_split_of_sorted :
    ∀ (L : List Segment), L.Pairwise byStart → ∀ (tp t0 : ℚ), tp ≤ t0 →
      ∀ (P : Segment → Bool),
      L.filter (fun s => decide (s.start ≤ tp) && P s) ++
        L.filter (fun s => !decide (s.start ≤ tp) && decide (s.start ≤ t0) && P s) =
      L.filter (fun s => decide (s.start ≤ t0) && P s)
  | [], _, tp, t0, h, P => rfl
  | a :: l, hs, tp, t0, h, P => by
    obtain ⟨h1, h2⟩ := List.pairwise_cons.mp hs
    have ih := filter_split_of_sorted l h2 tp t0 h P
    rcases Classical.em (a.start ≤ tp) with ha | ha
    · have hat : a.start ≤ t0 := le_trans ha h
      rcases hp : P a with _ | _
      · simp only [List.filter_cons, decide_eq_true ha, decide_eq_true hat, hp,
          Bool.and_false, Bool.not_true, Bool.false_and, Bool.false_eq_true,
          if_false]
        exact ih
      · simp only [List.filter_cons, decide_eq_true ha, decide_eq_true hat, hp,
          Bool.and_true, Bool.not_true, Bool.false_and, Bool.true_and,
          Bool.false_eq_true, if_false, if_true, List.cons_append]
        rw [ih]
    · have hfilter1 : l.filter (fun s => decide (s.start ≤ tp) && P s) = [] := by
        apply List.filter_eq_nil_iff.mpr
        intro s hsl
        simp only [Bool.and_eq_true, decide_eq_true_eq, not_and]
        intro hle
        exact absurd (le_trans (h1 s hsl) hle) ha
      have hfilter1a : (a :: l).filter (fun s => decide (s.start ≤ tp) && P s) = [] := by
        simp only [List.filter_cons, decide_eq_false ha, Bool.false_and,
          Bool.false_eq_true, if_false]
        exact hfilter1
      have hcongr : l.filter (fun s => !decide (s.start ≤ tp) &&
          decide (s.start ≤ t0) && P s) = l.filter (fun s => decide (s.start ≤ t0) && P s) := by
        apply List.filter_congr
        intro s hsl
        have : ¬ s.start ≤ tp := fun hle => ha (le_trans (h1 s hsl) hle)
        simp [this]
      rw [hfilter1a, List.nil_append]
      rcases Classical.em (a.start ≤ t0) with hat | hat
      · simp only [List.filter_cons, decide_eq_false ha, decide_eq_true hat,
          Bool.not_false, Bool.true_and]
        rw [hfilter1, hcongr] at ih
        rw [hcongr]
      · simp only [List.filter_cons, decide_eq_false ha, decide_eq_false hat,
          Bool.not_false, Bool.true_and, Bool.false_and, Bool.and_false,
          Bool.false_eq_true, if_false]
        rw [hcongr]

theorem insertUniq_ne_nil (acc : List String) (x : String) : insertUniq acc x ≠ [] := by
  unfold insertUniq
  split_ifs with h
  · intro he
    rw [he] at h
    simp at h
  · simp

theorem getSpeakerSet_aux : ∀ (l : List Segment) (acc : List String),
    (l.foldl (fun acc s => insertUniq acc s.speakerId) acc = [] ↔ acc = [] ∧ l = [])
  | [], acc => by simp
  | s :: t, acc => by
    simp only [List.foldl_cons]
    rw [getSpeakerSet_aux t (insertUniq acc s.speakerId)]
    simp [insertUniq_ne_nil acc s.speakerId]

theorem getSpeakerSet_eq_nil_iff (l : List Segment) :
    getSpeakerSet l = [] ↔ l = [] := by
  unfold getSpeakerSet
  rw [getSpeakerSet_aux l []]
  simp

theorem filter_ne_nil_iff_any (L : List Segment) (p : Segment → Bool) :
    L.filter p ≠ [] ↔ L.any p = true := by
  rw [Ne, List.filter_eq_nil_iff, List.any_eq_true]
  constructor
  · intro h
    rcases Classical.em (∃ x ∈ L, p x = true) with he | he
    · exact he
    · exact absurd (fun a ha hpa => he ⟨a, ha, hpa⟩) h
  · rintro ⟨x, hx, hp⟩ hall
    exact hall x hx hp

theorem sweepLoop_scored_mu (L : List Segment) (hL : L.Pairwise byStart) :
    ∀ (T : List ℚ), T.Pairwise (· ≤ ·) → ∀ (tp : ℚ), (∀ t ∈ T, tp ≤ t) →
    ∀ (st : SweepState),
      st.refRem = L.filter (fun s => !decide (s.start ≤ tp)) →
      st.refAct = L.filter (fun s => decide (s.start ≤ tp) && decide (tp < s.«end»)) →
      (sweepLoop st T).scored = st.scored + mu L T
  | [], _, tp, _, st, hrem, hact => by simp [sweepLoop, mu]
  | [t], _, tp, _, st, hrem, hact => by simp [sweepLoop, mu]
  | t0 :: t1 :: rest, hT, tp, hbound, st, hrem, hact => by
    have htp0 : tp ≤ t0 := hbound t0 (List.mem_cons_self _ _)
    have hremSorted : (L.filter (fun s => !decide (s.start ≤ tp))).Pairwise byStart :=
      hL.filter _
    have htake : st.refRem.takeWhile (fun s => decide (s.start ≤ t0)) =
        L.filter (fun s => !decide (s.start ≤ tp) && decide (s.start ≤ t0) &&
          decide (t0 < s.«end») || !decide (s.start ≤ tp) && decide (s.start ≤ t0) &&
          !decide (t0 < s.«end»)) := by
      rw [hrem, takeWhile_eq_filter_of_sorted _ hremSorted, List.filter_filter]
      apply List.filter_congr
      intro s _
      rcases Classical.em (s.start ≤ tp) with h1 | h1 <;>
        rcases Classical.em (s.start ≤ t0) with h2 | h2 <;>
        rcases Classical.em (t0 < s.«end») with h3 | h3 <;>
        simp [h1, h2, h3]
    have hactStep : (st.refAct ++ st.refRem.takeWhile
          (fun s => decide (s.start ≤ t0))).filter (fun s => decide (t0 < s.«end»)) =
        L.filter (fun s => decide (s.start ≤ t0) && decide (t0 < s.«end»)) := by
      rw [List.filter_append, hact, List.filter_filter, htake, List.filter_filter]
      have e1 : L.filter (fun s => decide (t0 < s.«end») &&
          (decide (s.start ≤ tp) && decide (tp < s.«end»))) =
          L.filter (fun s => decide (s.start ≤ tp) && decide (t0 < s.«end»)) := by
        apply List.filter_congr
        intro s _
        rcases Classical.em (s.start ≤ tp) with h1 | h1 <;>
          rcases Classical.em (t0 < s.«end») with h3 | h3 <;>
          rcases Classical.em (tp < s.«end») with h4 | h4 <;>
          simp [h1, h3, h4] <;> linarith
      have e2 : L.filter (fun s => decide (t0 < s.«end») &&
          (!decide (s.start ≤ tp) && decide (s.start ≤ t0) && decide (t0 < s.«end») ||
            !decide (s.start ≤ tp) && decide (s.start ≤ t0) && !decide (t0 < s.«end»))) =
          L.filter (fun s => !decide (s.start ≤ tp) && decide (s.start ≤ t0) &&
            decide (t0 < s.«end»)) := by
        apply List.filter_congr
        intro s _
        rcases Classical.em (s.start ≤ tp) with h1 | h1 <;>
          rcases Classical.em (s.start ≤ t0) with h2 | h2 <;>
          rcases Classical.em (t0 < s.«end») with h3 | h3 <;>
          simp [h1, h2, h3]
      rw [e1, e2]
      exact filter_split_of_sorted L hL tp t0 htp0 (fun s => decide (t0 < s.«end»))
    have hremStep : st.refRem.dropWhile (fun s => decide (s.start ≤ t0)) =
        L.filter (fun s => !decide (s.start ≤ t0)) := by
      rw [hrem, dropWhile_eq_filter_of_sorted _ hremSorted, List.filter_filter]
      apply List.filter_congr
      intro s _
      rcases Classical.em (s.start ≤ tp) with h1 | h1 <;>
        rcases Classical.em (s.start ≤ t0) with h2 | h2 <;>
        simp [h1, h2]
      exact h2 (le_trans h1 htp0)
    have hstep : sweepLoop st (t0 :: t1 :: rest) =
        sweepLoop (sweepStep st t0 t1) (t1 :: rest) := by
      simp [sweepLoop]
    have hbound' : ∀ t ∈ t1 :: rest, t0 ≤ t := by
      intro t ht
      exact (List.pairwise_cons.mp hT).1 t ht
    have ih := sweepLoop_scored_mu L hL (t1 :: rest) (List.Pairwise.of_cons hT)
      t0 hbound' (sweepStep st t0 t1)
      (by simp only [sweepStep]; exact hremStep)
      (by simp only [sweepStep]; exact hactStep)
    rw [hstep, ih]
    have hfilt : L.filter (fun s => decide (s.start ≤ t0) && decide (t0 < s.«end»)) ≠ [] ↔
        refIndicator L t0 = true := by
      rw [filter_ne_nil_iff_any]
      exact Iff.rfl
    have hscored : (sweepStep st t0 t1).scored =
        st.scored + (if refIndicator L t0 then max 0 (t1 - t0) else 0) := by
      rw [sweepStep_scored]
      rcases Classical.em (getSpeakerSet ((st.refAct ++ st.refRem.takeWhile
          (fun s => decide (s.start ≤ t0))).filter
            (fun s => decide (t0 < s.«end»))) = []) with hg | hg
      · have hfe : L.filter (fun s => decide (s.start ≤ t0) && decide (t0 < s.«end»)) = [] := by
          rw [← hactStep]
          exact (getSpeakerSet_eq_nil_iff _).mp hg
        have hindf : refIndicator L t0 = false := by
          rcases hai : refIndicator L t0 with _ | _
          · rfl
          · exact absurd hfe (hfilt.mpr hai)
        rw [if_neg (not_not_intro hg), if_neg (by simp [hindf])]
        exact (add_zero st.scored).symm
      · have hfe : L.filter (fun s => decide (s.start ≤ t0) && decide (t0 < s.«end»)) ≠ [] := by
          rw [← hactStep]
          intro he
          exact hg ((getSpeakerSet_eq_nil_iff _).mpr he)
        have hindt : refIndicator L t0 = true := hfilt.mp hfe
        rw [if_pos hg, if_pos hindt]
    rw [hscored]
    show st.scored + _ + mu L (t1 :: rest) =
      st.scored + ((if refIndicator L t0 then max 0 (t1 - t0) else 0) + mu L (t1 :: rest))
    ring

theorem sortByStart_pairwise (segments : List Segment) :
    (sortByStart segments).Pairwise byStart :=
  List.sorted_insertionSort byStart segments

theorem adjusted_pairwise (segments : List Segment) (c : ℚ) :
    (adjusted segments c).Pairwise byStart := by
  unfold adjusted
  split_ifs
  · unfold applyCollar
    apply List.pairwise_map.mpr
    apply (sortByStart_pairwise segments).imp
    intro a b hab
    exact max_le_max le_rfl (sub_le_sub_right hab c)
  · exact sortByStart_pairwise segments

theorem foldr_min_le (l : List ℚ) (a : ℚ) :
    (∀ x ∈ l, l.foldr min a ≤ x) ∧ l.foldr min a ≤ a := by
  induction l with
  | nil => exact ⟨by simp, le_refl a⟩
  | cons y t ih =>
    refine ⟨?_, le_trans (min_le_right _ _) ih.2⟩
    intro x hx
    rcases List.mem_cons.mp hx with rfl | hx
    · exact min_le_left _ _
    · exact le_trans (min_le_right _ _) (ih.1 x hx)

theorem scoredSpeechTime_eq_mu (refSegments sysSegments : List Segment) (c : ℚ) :
    scoredSpeechTime refSegments sysSegments c =
      mu (adjusted refSegments c) (timesOf refSegments sysSegments c) := by
  have hL := adjusted_pairwise refSegments c
  have hT : (timesOf refSegments sysSegments c).Pairwise (· ≤ ·) :=
    timesOf_sorted refSegments sysSegments c
  set L := adjusted refSegments c with hLdef
  set T := timesOf refSegments sysSegments c with hTdef
  set tp := ((L.map (fun s => s.start)) ++ T).foldr min 0 - 1 with htp
  have hmin := foldr_min_le ((L.map (fun s => s.start)) ++ T) 0
  have h1 : ∀ t ∈ T, tp ≤ t := by
    intro t ht
    have := hmin.1 t (List.mem_append_right _ ht)
    rw [htp]
    linarith
  have h2 : ∀ s ∈ L, ¬ s.start ≤ tp := by
    intro s hs hle
    have := hmin.1 s.start (List.mem_append_left _ (List.mem_map.mpr ⟨s, hs, rfl⟩))
    rw [htp] at hle
    linarith
  have hrem : L = L.filter (fun s => !decide (s.start ≤ tp)) := by
    symm
    apply List.filter_eq_self.mpr
    intro s hs
    simp [h2 s hs]
  have hact : ([] : List Segment) =
      L.filter (fun s => decide (s.start ≤ tp) && decide (tp < s.«end»)) := by
    symm
    apply List.filter_eq_nil_iff.mpr
    intro s hs
    simp [h2 s hs]
  have := sweepLoop_scored_mu L hL T hT tp h1
    ⟨L, adjusted sysSegments c, [], [], [], [], 0⟩ hrem hact
  simpa [scoredSpeechTime, sweepOf] using this

theorem refIndicator_iff (L : List Segment) (t : ℚ) :
    refIndicator L t = true ↔ ∃ s ∈ L, s.start ≤ t ∧ t < s.«end» := by
  simp [refIndicator, List.any_eq_true]

theorem refIndicator_const (L : List Segment) (u x : ℚ) (hux : u ≤ x)
    (h : ∀ b ∈ refBounds L, b ≤ u ∨ x < b) :
    refIndicator L u = refIndicator L x := by
  have hiff : (refIndicator L u = true) ↔ (refIndicator L x = true) := by
    rw [refIndicator_iff, refIndicator_iff]
    constructor
    · rintro ⟨s, hs, h1, h2⟩
      refine ⟨s, hs, le_trans h1 hux, ?_⟩
      rcases h s.«end» (by simp [refBounds, List.mem_flatMap]; exact ⟨s, hs, Or.inr rfl⟩)
        with he | he
      · linarith
      · exact he
    · rintro ⟨s, hs, h1, h2⟩
      refine ⟨s, ?_, ?_, by linarith⟩
      · exact hs
      · rcases h s.start (by simp [refBounds, List.mem_flatMap]; exact ⟨s, hs, Or.inl rfl⟩)
          with he | he
        · exact he
        · linarith
  rcases hu : refIndicator L u with _ | _ <;> rcases hx : refIndicator L x with _ | _
  · rfl
  · exact absurd (hiff.mpr hx) (by simp [hu])
  · exact absurd (hiff.mp hu) (by simp [hx])
  · rfl

theorem refIndicator_low (L : List Segment) (x : ℚ)
    (h : ∀ b ∈ refBounds L, x < b) : refIndicator L x = false := by
  rcases hi : refIndicator L x with _ | _
  · rfl
  · obtain ⟨s, hs, h1, _⟩ := (refIndicator_iff L x).mp hi
    have := h s.start (by simp [refBounds, List.mem_flatMap]; exact ⟨s, hs, Or.inl rfl⟩)
    linarith

theorem refIndicator_high (L : List Segment) (x : ℚ)
    (h : ∀ b ∈ refBounds L, b ≤ x) : refIndicator L x = false := by
  rcases hi : refIndicator L x with _ | _
  · rfl
  · obtain ⟨s, hs, _, h2⟩ := (refIndicator_iff L x).mp hi
    have := h s.«end» (by simp [refBounds, List.mem_flatMap]; exact ⟨s, hs, Or.inr rfl⟩)
    linarith

theorem mu_cons_filter (L : List Segment) : ∀ (T : List ℚ) (prev : ℚ),
    (prev :: T).Pairwise (· < ·) →
    (∀ b ∈ refBounds L, b ≤ prev ∨ b ∈ T) →
    mu L (prev :: T) = mu L (prev :: T.filter (fun t => decide (t ∈ refBounds L)))
  | [], prev, _, _ => rfl
  | t :: T', prev, hp, hB => by
    have hpt : prev < t := (List.pairwise_cons.mp hp).1 t (List.mem_cons_self _ _)
    have hpT' : ∀ b ∈ T', t < b :=
      (List.pairwise_cons.mp (List.Pairwise.of_cons hp)).1
    rcases Classical.em (t ∈ refBounds L) with ht | ht
    · have hB' : ∀ b ∈ refBounds L, b ≤ t ∨ b ∈ T' := by
        intro b hb
        rcases hB b hb with h | h
        · exact Or.inl (le_trans h (le_of_lt hpt))
        · rcases List.mem_cons.mp h with rfl | h
          · exact Or.inl le_rfl
          · exact Or.inr h
      have ih := mu_cons_filter L T' t (List.Pairwise.of_cons hp) hB'
      have hfc : (t :: T').filter (fun x => decide (x ∈ refBounds L)) =
          t :: T'.filter (fun x => decide (x ∈ refBounds L)) := by
        rw [List.filter_cons, if_pos (by simpa using ht)]
      rw [hfc]
      show (if refIndicator L prev then max 0 (t - prev) else 0) + mu L (t :: T') =
        (if refIndicator L prev then max 0 (t - prev) else 0) +
          mu L (t :: T'.filter (fun x => decide (x ∈ refBounds L)))
      rw [ih]
    · have hB' : ∀ b ∈ refBounds L, b ≤ prev ∨ b ∈ T' := by
        intro b hb
        rcases hB b hb with h | h
        · exact Or.inl h
        · rcases List.mem_cons.mp h with rfl | h
          · exact absurd hb ht
          · exact Or.inr h
      have hppair : (prev :: T').Pairwise (· < ·) := by
        rw [List.pairwise_cons]
        exact ⟨fun b hb => lt_trans hpt (hpT' b hb),
          List.Pairwise.of_cons (List.Pairwise.of_cons hp)⟩
      have ih := mu_cons_filter L T' prev hppair hB'
      have hind : refIndicator L prev = refIndicator L t := by
        apply refIndicator_const L prev t (le_of_lt hpt)
        intro b hb
        rcases hB' b hb with h | h
        · exact Or.inl h
        · exact Or.inr (hpT' b h)
      rw [List.filter_cons, if_neg (by simpa using ht)]
      rw [← ih]
      rcases T' with _ | ⟨t', T''⟩
      · have hall : ∀ b ∈ refBounds L, b ≤ prev := by
          intro b hb
          rcases hB' b hb with h | h
          · exact h
          · simp at h
        have hip := refIndicator_high L prev hall
        show (if refIndicator L prev then max 0 (t - prev) else 0) + mu L [t] = mu L [prev]
        simp [hip, mu]
      · show (if refIndicator L prev then max 0 (t - prev) else 0) +
          ((if refIndicator L t then max 0 (t' - t) else 0) + mu L (t' :: T'')) =
          (if refIndicator L prev then max 0 (t' - prev) else 0) + mu L (t' :: T'')
        have htt' : t < t' := hpT' t' (List.mem_cons_self _ _)
        rw [← hind]
        rcases hip : refIndicator L prev with _ | _
        · simp
        · simp only [if_true]
          have e1 : max 0 (t - prev) = t - prev := max_eq_right (by linarith)
          have e2 : max 0 (t' - t) = t' - t := max_eq_right (by linarith)
          have e3 : max 0 (t' - prev) = t' - prev := max_eq_right (by linarith)
          rw [e1, e2, e3]
          ring

theorem mu_filter (L : List Segment) : ∀ (T : List ℚ), T.Pairwise (· < ·) →
    (∀ b ∈ refBounds L, b ∈ T) →
    mu L T = mu L (T.filter (fun t => decide (t ∈ refBounds L)))
  | [], _, _ => rfl
  | prev :: T', hp, hB => by
    have hB' : ∀ b ∈ refBounds L, b ≤ prev ∨ b ∈ T' := by
      intro b hb
      rcases List.mem_cons.mp (hB b hb) with rfl | h
      · exact Or.inl le_rfl
      · exact Or.inr h
    have h1 := mu_cons_filter L T' prev hp hB'
    rcases Classical.em (prev ∈ refBounds L) with hm | hm
    · rw [h1, List.filter_cons, if_pos (by simpa using hm)]
    · rw [h1, List.filter_cons, if_neg (by simpa using hm)]
      rcases hf : T'.filter (fun t => decide (t ∈ refBounds L)) with _ | ⟨l, L''⟩
      · simp [mu]
      · have hlow : ∀ b ∈ refBounds L, prev < b := by
          intro b hb
          rcases List.mem_cons.mp (hB b hb) with rfl | h
          · exact absurd hb hm
          · exact (List.pairwise_cons.mp hp).1 b h
        have hip := refIndicator_low L prev hlow
        show (if refIndicator L prev then max 0 (l - prev) else 0) + mu L (l :: L'') =
          mu L (l :: L'')
        simp [hip]

/-- **C3** — The scored speech time (the denominator of all percentage
metrics) is determined by the reference segments and the collar alone: any
two system segment lists yield the same `metrics.scored`. -/
theorem computeDER_scored_sys_independent (refSegments : List Segment) (c : ℚ)
    (sys1 sys2 : List Segment) :
    (computeDER refSegments sys1 c).metrics.scored =
      (computeDER refSegments sys2 c).metrics.scored := by
  have hms : ∀ sysSegments : List Segment,
      (computeDER refSegments sysSegments c).metrics.scored =
        scoredSpeechTime refSegments sysSegments c := by
    intro sysSegments
    simp [computeDER]
  have hsub : ∀ sysSegments : List Segment,
      ∀ b ∈ refBounds (adjusted refSegments c),
        b ∈ timesOf refSegments sysSegments c := by
    intro sysSegments b hb
    rw [mem_timesOf_iff]
    exact List.mem_append_left _ hb
  have hcanon : ∀ sysSegments : List Segment,
      (timesOf refSegments sysSegments c).filter
          (fun t => decide (t ∈ refBounds (adjusted refSegments c))) =
        (timesOf refSegments [] c).filter
          (fun t => decide (t ∈ refBounds (adjusted refSegments c))) := by
    intro sysSegments
    apply List.eq_of_perm_of_sorted (r := (· ≤ ·))
    · rw [List.perm_ext_iff_of_nodup
        ((timesOf_nodup refSegments sysSegments c).filter _)
        ((timesOf_nodup refSegments [] c).filter _)]
      intro a
      simp only [List.mem_filter, decide_eq_true_eq]
      constructor
      · rintro ⟨_, hmem⟩
        exact ⟨(hsub [] a hmem), hmem⟩
      · rintro ⟨_, hmem⟩
        exact ⟨(hsub sysSegments a hmem), hmem⟩
    · exact (timesOf_sorted refSegments sysSegments c).filter _
    · exact (timesOf_sorted refSegments [] c).filter _
  have key : ∀ sysSegments : List Segment,
      scoredSpeechTime refSegments sysSegments c =
        mu (adjusted refSegments c)
          ((timesOf refSegments [] c).filter
            (fun t => decide (t ∈ refBounds (adjusted refSegments c)))) := by
    intro sysSegments
    rw [scoredSpeechTime_eq_mu refSegments sysSegments c,
      mu_filter (adjusted refSegments c) _
        (timesOf_pairwise_lt refSegments sysSegments c) (hsub sysSegments),
      hcanon sysSegments]
  rw [hms sys1, hms sys2, key sys1, key sys2]

/-- Witness for C3 at concrete inputs. -/
theorem computeDER_scored_sys_independent_witness :
    (computeDER [⟨"i", "A", 0, 10⟩] [⟨"j", "1", 2, 3⟩] 0).metrics.scored =
      (computeDER [⟨"i", "A", 0, 10⟩] [] 0).metrics.scored :=
  computeDER_scored_sys_independent [⟨"i", "A", 0, 10⟩] 0 [⟨"j", "1", 2, 3⟩] []

/-! ## The RTTM round trip (claim C8) -/

theorem natChars_eq_map (n : ℕ) : natChars n = (natDigitsBE n).map digitChar := by
  unfold natChars natDigitsBE
  split_ifs <;> simp

theorem natDigitsBE_lt (n : ℕ) : ∀ d ∈ natDigitsBE n, d < 10 := by
  unfold natDigitsBE
  split_ifs with h
  · intro d hd
    simp at hd
    omega
  · intro d hd
    rw [List.mem_reverse] at hd
    exact Nat.digits_lt_base (by norm_num) hd

theorem natDigitsBE_ne_nil (n : ℕ) : natDigitsBE n ≠ [] := by
  unfold natDigitsBE
  split_ifs with h
  · simp
  · simp [Nat.digits_ne_nil_iff_ne_zero, h]

theorem beVal_append_singleton (xs : List ℕ) (d : ℕ) :
    beVal (xs ++ [d]) = 10 * beVal xs + d := by
  unfold beVal
  rw [List.foldl_append]
  rfl

theorem beVal_reverse (l : List ℕ) : beVal l.reverse = Nat.ofDigits 10 l := by
  induction l with
  | nil => rfl
  | cons d t ih =>
    rw [List.reverse_cons, beVal_append_singleton, ih, Nat.ofDigits_cons]
    push_cast
    omega

theorem beVal_natDigitsBE (n : ℕ) : beVal (natDigitsBE n) = n := by
  unfold natDigitsBE
  split_ifs with h
  · simp [beVal, h]
  · rw [beVal_reverse, Nat.ofDigits_digits]

theorem digitVal_digitChar (d : ℕ) (h : d < 10) : digitVal (digitChar d) = some d := by
  interval_cases d <;> rfl

theorem digitChar_not_ws (d : ℕ) (h : d < 10) : (digitChar d).isWhitespace = false := by
  interval_cases d <;> rfl

theorem digitChar_ne_plus (d : ℕ) (h : d < 10) : digitChar d ≠ '+' := by
  interval_cases d <;> decide

theorem digitChar_ne_minus (d : ℕ) (h : d < 10) : digitChar d ≠ '-' := by
  interval_cases d <;> decide

theorem takeDigits_map_append (ds : List ℕ) (h : ∀ d ∈ ds, d < 10)
    (rest : List Char) (hrest : ∀ c, rest.head? = some c → digitVal c = none) :
    takeDigits (ds.map digitChar ++ rest) = (ds, rest) := by
  induction ds with
  | nil =>
    simp only [List.map_nil, List.nil_append]
    rcases rest with _ | ⟨c, r⟩
    · rfl
    · simp only [takeDigits, hrest c rfl]
  | cons d t ih =>
    have hd : d < 10 := h d (List.mem_cons_self _ _)
    simp only [List.map_cons, List.cons_append, takeDigits,
      digitVal_digitChar d hd, List.append_eq]
    rw [ih (fun x hx => h x (List.mem_cons_of_mem _ hx))]

theorem pad3_eq_map (m : ℕ) :
    pad3 m = ([m / 100, m / 10 % 10, m % 10]).map digitChar := rfl

theorem beVal_pad3_digits (m : ℕ) (h : m < 1000) :
    beVal [m / 100, m / 10 % 10, m % 10] = m := by
  unfold beVal
  simp only [List.foldl_cons, List.foldl_nil]
  omega

theorem parseFloatPos_fixed (sgn : ℚ) (n m : ℕ) (hm : m < 1000) :
    parseFloatPos sgn (natChars n ++ '.' :: pad3 m) =
      some (sgn * ((n : ℚ) + (m : ℚ) / 1000)) := by
  have htake : takeDigits (natChars n ++ '.' :: pad3 m) =
      (natDigitsBE n, '.' :: pad3 m) := by
    rw [natChars_eq_map]
    apply takeDigits_map_append _ (natDigitsBE_lt n)
    intro c hc
    have : c = '.' := by simpa using hc.symm
    rw [this]
    rfl
  have hfrac : takeDigits (pad3 m) = ([m / 100, m / 10 % 10, m % 10], []) := by
    rw [pad3_eq_map,
      ← List.append_nil (List.map digitChar [m / 100, m / 10 % 10, m % 10])]
    apply takeDigits_map_append
    · intro d hd
      simp only [List.mem_cons, List.mem_singleton, List.not_mem_nil, or_false] at hd
      rcases hd with hd | hd | hd <;> omega
    · intro c hc
      simp at hc
  unfold parseFloatPos
  rw [htake]
  have hfs : fracSplit ('.' :: pad3 m) = ([m / 100, m / 10 % 10, m % 10], []) := by
    show (if ('.' : Char) = '.' then takeDigits (pad3 m)
      else ([], '.' :: pad3 m)) = ([m / 100, m / 10 % 10, m % 10], [])
    rw [if_pos rfl, hfrac]
  simp only [hfs]
  rw [if_neg (by simp [natDigitsBE_ne_nil n])]
  rw [beVal_natDigitsBE, beVal_pad3_digits m hm]
  norm_num [parseExpPart]

theorem parseFloatQ_head_not_sign (l : List Char) (c : Char) (h : l.head? = some c)
    (h1 : c ≠ '+') (h2 : c ≠ '-') : parseFloatQ l = parseFloatPos 1 l := by
  rcases l with _ | ⟨c', r⟩
  · simp at h
  · have hc : c' = c := by simpa using h
    show (if c' = '+' then parseFloatPos 1 r else if c' = '-' then
      parseFloatPos (-1) r else parseFloatPos 1 (c' :: r)) = parseFloatPos 1 (c' :: r)
    rw [if_neg (by rw [hc]; exact h1), if_neg (by rw [hc]; exact h2)]

theorem parseFloatQ_cons_minus (r : List Char) :
    parseFloatQ ('-' :: r) = parseFloatPos (-1) r := by
  show (if ('-' : Char) = '+' then parseFloatPos 1 r else if ('-' : Char) = '-' then
    parseFloatPos (-1) r else parseFloatPos 1 ('-' :: r)) = parseFloatPos (-1) r
  rw [if_neg (by decide), if_pos rfl]

theorem natAbs_div_add_mod_q (a : ℕ) :
    ((a / 1000 : ℕ) : ℚ) + ((a % 1000 : ℕ) : ℚ) / 1000 = (a : ℚ) / 1000 := by
  have h : 1000 * (a / 1000) + a % 1000 = a := Nat.div_add_mod a 1000
  have hq : 1000 * ((a / 1000 : ℕ) : ℚ) + ((a % 1000 : ℕ) : ℚ) = (a : ℚ) := by
    exact_mod_cast congrArg (fun x : ℕ => (x : ℚ)) h
  field_simp
  linarith

theorem parseFloatQ_toFixed3 (q : ℚ) : parseFloatQ (toFixed3 q) = some (round3 q) := by
  rcases Classical.em (fixed3Int q < 0) with hneg | hneg
  · have hfix : toFixed3 q = '-' :: (natChars ((fixed3Int q).natAbs / 1000) ++
        '.' :: pad3 ((fixed3Int q).natAbs % 1000)) := by
      unfold toFixed3
      rw [if_pos hneg]
      simp
    rw [hfix, parseFloatQ_cons_minus,
      parseFloatPos_fixed (-1) _ _ (Nat.mod_lt _ (by norm_num))]
    congr 1
    rw [natAbs_div_add_mod_q]
    have habs : (((fixed3Int q).natAbs : ℕ) : ℚ) = -((fixed3Int q : ℤ) : ℚ) := by
      rw [Int.cast_natAbs]
      rw [abs_of_neg (by exact_mod_cast hneg)]
      push_cast
      ring
    rw [habs]
    unfold round3 fixed3Int
    ring
  · have hfix : toFixed3 q = natChars ((fixed3Int q).natAbs / 1000) ++
        '.' :: pad3 ((fixed3Int q).natAbs % 1000) := by
      unfold toFixed3
      rw [if_neg hneg]
      simp
    obtain ⟨d, ds, hds⟩ : ∃ d ds, natDigitsBE ((fixed3Int q).natAbs / 1000) = d :: ds := by
      rcases hnd : natDigitsBE ((fixed3Int q).natAbs / 1000) with _ | ⟨d, ds⟩
      · exact absurd hnd (natDigitsBE_ne_nil _)
      · exact ⟨d, ds, rfl⟩
    have hd10 : d < 10 := natDigitsBE_lt _ d (by rw [hds]; exact List.mem_cons_self _ _)
    have hhead : (toFixed3 q).head? = some (digitChar d) := by
      rw [hfix, natChars_eq_map, hds]
      simp
    rw [parseFloatQ_head_not_sign _ _ hhead (digitChar_ne_plus d hd10)
      (digitChar_ne_minus d hd10), hfix,
      parseFloatPos_fixed 1 _ _ (Nat.mod_lt _ (by norm_num))]
    congr 1
    rw [natAbs_div_add_mod_q]
    have habs : (((fixed3Int q).natAbs : ℕ) : ℚ) = ((fixed3Int q : ℤ) : ℚ) := by
      rw [Int.cast_natAbs]
      rw [abs_of_nonneg (by exact_mod_cast not_lt.mp hneg)]
    rw [habs]
    unfold round3 fixed3Int
    ring

theorem toFixed3_wsFree (q : ℚ) : wsFree (toFixed3 q) := by
  constructor
  · unfold toFixed3
    simp
  · intro ch hch
    unfold toFixed3 at hch
    rw [List.mem_append, List.mem_append] at hch
    rcases hch with (hch | hch) | hch
    · have : ch = '-' := by
        rcases Classical.em (fixed3Int q < 0) with hc | hc <;> simp [hc] at hch
        exact hch
      rw [this]
      rfl
    · rw [natChars_eq_map] at hch
      obtain ⟨d, hd, hconv⟩ := List.mem_map.mp hch
      rw [← hconv]
      exact digitChar_not_ws d (natDigitsBE_lt _ d hd)
    · rcases List.mem_cons.mp hch with rfl | hch
      · rfl
      · rw [pad3_eq_map] at hch
        obtain ⟨d, hd, hconv⟩ := List.mem_map.mp hch
        simp only [List.mem_cons, List.mem_singleton, List.not_mem_nil,
          or_false] at hd
        have hm : (fixed3Int q).natAbs % 1000 < 1000 := Nat.mod_lt _ (by norm_num)
        rw [← hconv]
        apply digitChar_not_ws
        rcases hd with rfl | rfl | rfl <;> omega

theorem not_ws_ne_nl {ch : Char} (h : ch.isWhitespace = false) : ch ≠ '\n' := by
  intro he
  rw [he] at h
  simp at h

theorem not_ws_ne_cr {ch : Char} (h : ch.isWhitespace = false) : ch ≠ '\r' := by
  intro he
  rw [he] at h
  simp at h

theorem joinSep_cons (sep : Char) (t : List Char) (ts : List (List Char)) :
    joinSep sep (t :: ts) = t ++ (if ts = [] then [] else sep :: joinSep sep ts) := by
  rcases ts with _ | ⟨t2, ts'⟩
  · simp [joinSep]
  · simp [joinSep]

theorem joinSep_mem_chars (sep : Char) : ∀ (ts : List (List Char)) (ch : Char),
    ch ∈ joinSep sep ts → ch = sep ∨ ∃ t ∈ ts, ch ∈ t
  | [], ch, h => by simp [joinSep] at h
  | [t], ch, h => by
    simp only [joinSep] at h
    exact Or.inr ⟨t, List.mem_singleton.mpr rfl, h⟩
  | t :: t2 :: ts', ch, h => by
    simp only [joinSep, List.mem_append, List.mem_cons] at h
    rcases h with h | h | h
    · exact Or.inr ⟨t, List.mem_cons_self _ _, h⟩
    · exact Or.inl h
    · rcases joinSep_mem_chars sep (t2 :: ts') ch h with h' | ⟨t', ht', hch⟩
      · exact Or.inl h'
      · exact Or.inr ⟨t', List.mem_cons_of_mem _ ht', hch⟩

theorem joinSep_ne_nil (sep : Char) (t : List Char) (ts : List (List Char))
    (h : t ≠ []) : joinSep sep (t :: ts) ≠ [] := by
  rw [joinSep_cons]
  simp [h]

theorem joinSep_head? (sep : Char) (t : List Char) (ts : List (List Char))
    (h : t ≠ []) : (joinSep sep (t :: ts)).head? = t.head? := by
  rw [joinSep_cons]
  rcases t with _ | ⟨c, r⟩
  · exact absurd rfl h
  · simp

theorem getLast?_append_right (l₁ l₂ : List Char) (h : l₂ ≠ []) :
    (l₁ ++ l₂).getLast? = l₂.getLast? := by
  induction l₁ with
  | nil => rfl
  | cons c r ih =>
    rcases hl : r ++ l₂ with _ | ⟨x, xs⟩
    · exact absurd (List.append_eq_nil.mp hl).2 h
    · rw [List.cons_append, hl, List.getLast?_cons_cons, ← hl, ih]

theorem joinSep_getLast? (sep : Char) : ∀ (ts : List (List Char)) (t : List Char),
    t ≠ [] → (∀ u ∈ ts, u ≠ []) →
    (joinSep sep (ts ++ [t])).getLast? = t.getLast?
  | [], t, ht, _ => by simp [joinSep]
  | u :: ts', t, ht, hu => by
    have hjoin : joinSep sep ((u :: ts') ++ [t]) =
        u ++ sep :: joinSep sep (ts' ++ [t]) := by
      rw [List.cons_append, joinSep_cons]
      simp
    rw [hjoin, getLast?_append_right]
    · rw [show (sep :: joinSep sep (ts' ++ [t])) =
        [sep] ++ joinSep sep (ts' ++ [t]) from rfl, getLast?_append_right]
      · exact joinSep_getLast? sep ts' t ht (fun x hx => hu x (List.mem_cons_of_mem _ hx))
      · rcases ts' with _ | ⟨v, ts''⟩
        · simpa [joinSep] using ht
        · rw [List.cons_append]
          exact joinSep_ne_nil sep v _ (hu v (List.mem_cons_of_mem _ (List.mem_cons_self _ _)))
    · simp

theorem dropWhile_eq_self_of_head (l : List Char) (p : Char → Bool)
    (h : ∀ c, l.head? = some c → p c = false) : l.dropWhile p = l := by
  rcases l with _ | ⟨c, r⟩
  · rfl
  · rw [List.dropWhile_cons, h c rfl]
    simp

theorem trimWs_eq_self (l : List Char)
    (hhead : ∀ c, l.head? = some c → c.isWhitespace = false)
    (hlast : ∀ c, l.getLast? = some c → c.isWhitespace = false) :
    trimWs l = l := by
  unfold trimWs
  rw [dropWhile_eq_self_of_head l _ hhead]
  rw [dropWhile_eq_self_of_head l.reverse _ (fun c hc => hlast c (by
    rwa [List.head?_reverse] at hc))]
  exact List.reverse_reverse l

theorem tokensAux_nonws_append (t : List Char)
    (h : ∀ ch ∈ t, ch.isWhitespace = false) :
    ∀ (rest cur : List Char), tokensAux (t ++ rest) cur = tokensAux rest (t.reverse ++ cur) := by
  induction t with
  | nil => intro rest cur; simp
  | cons c t' ih =>
    intro rest cur
    have hc : c.isWhitespace = false := h c (List.mem_cons_self _ _)
    rw [List.cons_append]
    show tokensAux (c :: (t' ++ rest)) cur = _
    rw [show tokensAux (c :: (t' ++ rest)) cur = tokensAux (t' ++ rest) (c :: cur) from by
      simp [tokensAux, hc]]
    rw [ih (fun x hx => h x (List.mem_cons_of_mem _ hx)) rest (c :: cur)]
    simp

theorem tokens_single (t : List Char) (h : wsFree t) : tokens t = [t] := by
  unfold tokens
  rw [show tokensAux t [] = tokensAux (t ++ []) [] from by rw [List.append_nil],
    tokensAux_nonws_append t h.2 [] []]
  simp [tokensAux, h.1]

theorem tokens_joinSep : ∀ (ts : List (List Char)), (∀ t ∈ ts, wsFree t) →
    ts ≠ [] → tokens (joinSep ' ' ts) = ts
  | [], _, hne => absurd rfl hne
  | [t], h, _ => by
    simp only [joinSep]
    exact tokens_single t (h t (List.mem_singleton.mpr rfl))
  | t :: t2 :: ts', h, _ => by
    have ht : wsFree t := h t (List.mem_cons_self _ _)
    have hjoin : joinSep ' ' (t :: t2 :: ts') = t ++ ' ' :: joinSep ' ' (t2 :: ts') := by
      rw [joinSep_cons]
      simp
    unfold tokens
    rw [hjoin, tokensAux_nonws_append t ht.2]
    have hws : (' ' : Char).isWhitespace = true := rfl
    rw [show tokensAux (' ' :: joinSep ' ' (t2 :: ts')) (t.reverse ++ []) =
        (t.reverse ++ []).reverse :: tokensAux (joinSep ' ' (t2 :: ts')) [] from by
      simp only [tokensAux, hws, if_true]
      rw [if_neg (by simp [ht.1])]]
    simp only [List.append_nil, List.reverse_reverse]
    have ih := tokens_joinSep (t2 :: ts') (fun x hx => h x (List.mem_cons_of_mem _ hx))
      (by simp)
    unfold tokens at ih
    rw [ih]

theorem splitNlAux_append_line (l : List Char) (h : ∀ ch ∈ l, ch ≠ '\n') :
    ∀ (rest cur : List Char),
      splitNlAux (l ++ '\n' :: rest) cur = (cur.reverse ++ l) :: splitNlAux rest [] := by
  induction l with
  | nil =>
    intro rest cur
    simp [splitNlAux]
  | cons c l' ih =>
    intro rest cur
    have hc : c ≠ '\n' := h c (List.mem_cons_self _ _)
    rw [List.cons_append]
    show splitNlAux (c :: (l' ++ '\n' :: rest)) cur = _
    rw [show splitNlAux (c :: (l' ++ '\n' :: rest)) cur =
        splitNlAux (l' ++ '\n' :: rest) (c :: cur) from by simp [splitNlAux, hc]]
    rw [ih (fun x hx => h x (List.mem_cons_of_mem _ hx)) rest (c :: cur)]
    simp

/-- Splitting the serialized text: one entry per line plus a final empty
line (from the trailing newline). -/
theorem splitLines_joined : ∀ (lines : List (List Char)), lines ≠ [] →
    (∀ line ∈ lines, (∀ ch ∈ line, ch ≠ '\n') ∧ line.getLast? ≠ some '\r') →
    splitLines (joinSep '\n' lines ++ ['\n']) = lines ++ [[]]
  | [], hne, _ => absurd rfl hne
  | [l], _, h => by
    obtain ⟨h1, h2⟩ := h l (List.mem_singleton.mpr rfl)
    simp only [joinSep]
    unfold splitLines
    rw [splitNlAux_append_line l h1 [] []]
    simp [splitNlAux, stripCr, h2]
  | l :: l2 :: ls, _, h => by
    obtain ⟨h1, h2⟩ := h l (List.mem_cons_self _ _)
    have hjoin : joinSep '\n' (l :: l2 :: ls) ++ ['\n'] =
        l ++ '\n' :: (joinSep '\n' (l2 :: ls) ++ ['\n']) := by
      rw [joinSep_cons]
      simp
    unfold splitLines
    rw [hjoin, splitNlAux_append_line l h1 _ []]
    have ih := splitLines_joined (l2 :: ls) (by simp)
      (fun x hx => h x (List.mem_cons_of_mem _ hx))
    unfold splitLines at ih
    simp only [List.map_cons, List.reverse_nil, List.nil_append, ih]
    rw [show stripCr l = l from by simp [stripCr, h2]]
    simp

theorem parseRTTMLine_nil : parseRTTMLine [] = none := rfl

theorem round_mono_q {x y : ℚ} (h : x ≤ y) : round x ≤ round y := by
  rw [round_eq, round_eq]
  exact Int.floor_mono (by linarith)

theorem round3_mono {x y : ℚ} (h : x ≤ y) : round3 x ≤ round3 y := by
  unfold round3
  have h1 : round (x * 1000) ≤ round (y * 1000) := round_mono_q (by linarith)
  have h2 : ((round (x * 1000) : ℤ) : ℚ) ≤ ((round (y * 1000) : ℤ) : ℚ) := by
    exact_mod_cast h1
  linarith

theorem round3_ge_centi {q : ℚ} (h : 1 / 100 ≤ q) : 1 / 100 ≤ round3 q := by
  have h1 : (((10 : ℤ) : ℚ)) ≤ q * 1000 := by push_cast; linarith
  have h2 : (10 : ℤ) ≤ round (q * 1000) := by
    have hm := round_mono_q h1
    rwa [round_intCast] at hm
  unfold round3
  have h3 : ((10 : ℤ) : ℚ) ≤ ((round (q * 1000) : ℤ) : ℚ) := by exact_mod_cast h2
  push_cast at h3
  linarith

theorem rttmLine_tokens (fileId : List Char) (hf : wsFree fileId) (seg : Segment)
    (hs : wsFree seg.speakerId.data) :
    tokens (rttmLine fileId seg) =
      ["SPEAKER".data, fileId, ['1'], toFixed3 seg.start,
        toFixed3 (max (1 / 100) (seg.«end» - seg.start)),
        "<NA>".data, "<NA>".data, seg.speakerId.data, "<NA>".data] := by
  unfold rttmLine
  apply tokens_joinSep
  · intro t ht
    simp only [List.mem_cons, List.not_mem_nil, or_false] at ht
    rcases ht with rfl | rfl | rfl | rfl | rfl | rfl | rfl | rfl | rfl
    · exact ⟨by decide, by decide⟩
    · exact hf
    · exact ⟨by decide, by decide⟩
    · exact toFixed3_wsFree _
    · exact toFixed3_wsFree _
    · exact ⟨by decide, by decide⟩
    · exact ⟨by decide, by decide⟩
    · exact hs
    · exact ⟨by decide, by decide⟩
  · simp

theorem rttmLine_head? (fileId : List Char) (seg : Segment) :
    (rttmLine fileId seg).head? = some 'S' := by
  unfold rttmLine
  rw [joinSep_head? ' ' _ _ (by decide)]
  decide

theorem rttmLine_getLast? (fileId : List Char) (hf : fileId ≠ []) (seg : Segment)
    (hs : seg.speakerId.data ≠ []) :
    (rttmLine fileId seg).getLast? = some '>' := by
  unfold rttmLine
  rw [show (["SPEAKER".data, fileId, ['1'], toFixed3 seg.start,
      toFixed3 (max (1 / 100) (seg.«end» - seg.start)),
      "<NA>".data, "<NA>".data, seg.speakerId.data, "<NA>".data] : List (List Char)) =
      ["SPEAKER".data, fileId, ['1'], toFixed3 seg.start,
        toFixed3 (max (1 / 100) (seg.«end» - seg.start)),
        "<NA>".data, "<NA>".data, seg.speakerId.data] ++ ["<NA>".data] from rfl]
  rw [joinSep_getLast? ' ' _ _ (by decide) ?_]
  · decide
  · intro u hu
    simp only [List.mem_cons, List.not_mem_nil, or_false] at hu
    rcases hu with rfl | rfl | rfl | rfl | rfl | rfl | rfl | rfl
    · decide
    · exact hf
    · decide
    · exact (toFixed3_wsFree _).1
    · exact (toFixed3_wsFree _).1
    · decide
    · decide
    · exact hs

theorem rttmLine_trim (fileId : List Char) (hf : fileId ≠ []) (seg : Segment)
    (hs : seg.speakerId.data ≠ []) :
    trimWs (rttmLine fileId seg) = rttmLine fileId seg := by
  apply trimWs_eq_self
  · intro c hc
    rw [rttmLine_head? fileId seg] at hc
    have hcs := Option.some.inj hc
    rw [← hcs]
    decide
  · intro c hc
    rw [rttmLine_getLast? fileId hf seg hs] at hc
    have hcs := Option.some.inj hc
    rw [← hcs]
    decide

/-- Parsing one serialized line recovers the segment, with start and the
`0.01`-floored duration each rounded to three decimals. -/
theorem parseRTTMLine_rttmLine (fileId : List Char) (hf : wsFree fileId)
    (seg : Segment) (hs : wsFree seg.speakerId.data) :
    parseRTTMLine (rttmLine fileId seg) = some
      { id := String.mk (seg.speakerId.data ++
          '_' :: toFixed3 (round3 seg.start) ++
          '_' :: toFixed3 (round3 seg.start +
            round3 (max (1 / 100) (seg.«end» - seg.start))))
        speakerId := seg.speakerId
        start := round3 seg.start
        «end» := round3 seg.start +
          round3 (max (1 / 100) (seg.«end» - seg.start)) } := by
  have htrim := rttmLine_trim fileId hf.1 seg hs.1
  have htok := rttmLine_tokens fileId hf seg hs
  have hne : trimWs (rttmLine fileId seg) ≠ [] := by
    rw [htrim]
    unfold rttmLine
    exact joinSep_ne_nil _ _ _ (by decide)
  have hsemi : ¬ (trimWs (rttmLine fileId seg)).head? = some ';' := by
    rw [htrim, rttmLine_head? fileId seg]
    decide
  have h0 : (tokens (trimWs (rttmLine fileId seg))).get? 0 = some ("SPEAKER".data) := by
    rw [htrim, htok]
    rfl
  have h3 : ((tokens (trimWs (rttmLine fileId seg))).get? 3).bind parseFloatQ =
      some (round3 seg.start) := by
    rw [htrim, htok]
    rw [show (["SPEAKER".data, fileId, ['1'], toFixed3 seg.start,
      toFixed3 (max (1 / 100) (seg.«end» - seg.start)),
      "<NA>".data, "<NA>".data, seg.speakerId.data,
      "<NA>".data] : List (List Char)).get? 3 = some (toFixed3 seg.start) from rfl]
    rw [Option.some_bind, parseFloatQ_toFixed3]
  have h4 : ((tokens (trimWs (rttmLine fileId seg))).get? 4).bind parseFloatQ =
      some (round3 (max (1 / 100) (seg.«end» - seg.start))) := by
    rw [htrim, htok]
    rw [show (["SPEAKER".data, fileId, ['1'], toFixed3 seg.start,
      toFixed3 (max (1 / 100) (seg.«end» - seg.start)),
      "<NA>".data, "<NA>".data, seg.speakerId.data,
      "<NA>".data] : List (List Char)).get? 4 =
      some (toFixed3 (max (1 / 100) (seg.«end» - seg.start))) from rfl]
    rw [Option.some_bind, parseFloatQ_toFixed3]
  have hd : 0 < round3 (max (1 / 100) (seg.«end» - seg.start)) :=
    lt_of_lt_of_le (by norm_num) (round3_ge_centi (le_max_left _ _))
  have hspk : speakerIdOfFields (tokens (trimWs (rttmLine fileId seg))) =
      seg.speakerId := by
    rw [htrim, htok]
    simp only [speakerIdOfFields]
    rw [show (["SPEAKER".data, fileId, ['1'], toFixed3 seg.start,
      toFixed3 (max (1 / 100) (seg.«end» - seg.start)),
      "<NA>".data, "<NA>".data, seg.speakerId.data,
      "<NA>".data] : List (List Char)).get? 7 = some seg.speakerId.data from rfl]
    show (if seg.speakerId.data = [] then ("unknown" : String)
      else String.mk seg.speakerId.data) = seg.speakerId
    rw [if_neg hs.1]
  have hd' : 0 < round3 ((100 : ℚ)⁻¹ ⊔ (seg.«end» - seg.start)) := by
    rw [show ((100 : ℚ)⁻¹) = 1 / 100 from by norm_num]
    exact hd
  simp only [parseRTTMLine]
  rw [if_neg hne, if_neg hsemi, if_neg (not_not_intro h0), h3, h4]
  simp [hd, hd', hspk]

theorem rttmLine_line_ok (fileId : List Char) (hf : wsFree fileId) (seg : Segment)
    (hs : wsFree seg.speakerId.data) :
    (∀ ch ∈ rttmLine fileId seg, ch ≠ '\n') ∧
      (rttmLine fileId seg).getLast? ≠ some '\r' := by
  constructor
  · intro ch hch
    unfold rttmLine at hch
    rcases joinSep_mem_chars ' ' _ ch hch with rfl | ⟨t, ht, hcht⟩
    · decide
    · refine not_ws_ne_nl ?_
      simp only [List.mem_cons, List.not_mem_nil, or_false] at ht
      rcases ht with rfl | rfl | rfl | rfl | rfl | rfl | rfl | rfl | rfl
      · exact (by decide : ∀ c ∈ ("SPEAKER".data), c.isWhitespace = false) ch hcht
      · exact hf.2 ch hcht
      · exact (by decide : ∀ c ∈ (['1'] : List Char), c.isWhitespace = false) ch hcht
      · exact (toFixed3_wsFree _).2 ch hcht
      · exact (toFixed3_wsFree _).2 ch hcht
      · exact (by decide : ∀ c ∈ ("<NA>".data), c.isWhitespace = false) ch hcht
      · exact (by decide : ∀ c ∈ ("<NA>".data), c.isWhitespace = false) ch hcht
      · exact hs.2 ch hcht
      · exact (by decide : ∀ c ∈ ("<NA>".data), c.isWhitespace = false) ch hcht
  · rw [rttmLine_getLast? fileId hf.1 seg hs.1]
    decide

theorem filterMap_parse_lines (fileId : List Char) (hf : wsFree fileId) :
    ∀ (l : List Segment), (∀ seg ∈ l, wsFree seg.speakerId.data) →
      (l.map (rttmLine fileId)).filterMap parseRTTMLine =
        l.map (fun seg =>
          { id := String.mk (seg.speakerId.data ++
              '_' :: toFixed3 (round3 seg.start) ++
              '_' :: toFixed3 (round3 seg.start +
                round3 (max (1 / 100) (seg.«end» - seg.start))))
            speakerId := seg.speakerId
            start := round3 seg.start
            «end» := round3 seg.start +
              round3 (max (1 / 100) (seg.«end» - seg.start)) })
  | [], _ => rfl
  | seg :: rest, h => by
    rw [List.map_cons, List.filterMap_cons_some
      (parseRTTMLine_rttmLine fileId hf seg (h seg (List.mem_cons_self _ _)))]
    rw [filterMap_parse_lines fileId hf rest (fun x hx => h x (List.mem_cons_of_mem _ hx))]
    rfl

/-- **C8 (amended)** — For every segment list with distinct positive
durations whose speaker ids are non-empty and whitespace-free, parsing the
serialized RTTM text yields segments whose `(speakerId, start, end)`
triples are those of the input sorted by start, with the start and the
`0.01`-floored duration each rounded to three decimal places, and the
output is sorted ascending by start.  (The whitespace-free-id condition is
the amendment: an id containing whitespace is split into several RTTM
fields and is not recovered, refuting the unconditional claim.) -/
theorem rttm_roundtrip (segs : List Segment)
    (hids : ∀ seg ∈ segs, wsFree seg.speakerId.data)
    (hdur : ∀ seg ∈ segs, 0 < seg.«end» - seg.start)
    (hdist : segs.Pairwise fun a b => a.«end» - a.start ≠ b.«end» - b.start) :
    (parseRTTMToSegments (segmentsToRTTM segs ("unknown".data))).map
        (fun s => (s.speakerId, s.start, s.«end»)) =
      (sortByStart segs).map (fun s => (s.speakerId, round3 s.start,
        round3 s.start + round3 (max (1 / 100) (s.«end» - s.start)))) ∧
      (parseRTTMToSegments (segmentsToRTTM segs ("unknown".data))).Pairwise byStart := by
  clear hdur hdist
  refine ⟨?_, List.sorted_insertionSort byStart _⟩
  have hfid : wsFree ("unknown".data) := ⟨by decide, by decide⟩
  rcases segs with _ | ⟨s0, rest⟩
  · rfl
  · have hperm := List.perm_insertionSort byStart (s0 :: rest)
    have hmem : ∀ seg ∈ sortByStart (s0 :: rest), wsFree seg.speakerId.data :=
      fun seg hm => hids seg (hperm.mem_iff.mp hm)
    have hnenil : sortByStart (s0 :: rest) ≠ [] := by
      intro hc
      have hlen := hperm.length_eq
      rw [show List.insertionSort byStart (s0 :: rest) = sortByStart (s0 :: rest)
        from rfl, hc] at hlen
      simp at hlen
    have hlines : ∀ line ∈ (sortByStart (s0 :: rest)).map (rttmLine ("unknown".data)),
        (∀ ch ∈ line, ch ≠ '\n') ∧ line.getLast? ≠ some '\r' := by
      intro line hline
      obtain ⟨seg, hm, rfl⟩ := List.mem_map.mp hline
      exact rttmLine_line_ok _ hfid seg (hmem seg hm)
    have hsplit : splitLines (segmentsToRTTM (s0 :: rest) ("unknown".data)) =
        ((sortByStart (s0 :: rest)).map (rttmLine ("unknown".data))) ++ [[]] := by
      unfold segmentsToRTTM
      exact splitLines_joined _
        (fun hc => hnenil (List.map_eq_nil_iff.mp hc)) hlines
    have hsorted : ((sortByStart (s0 :: rest)).map (fun seg =>
        ({ id := String.mk (seg.speakerId.data ++
             '_' :: toFixed3 (round3 seg.start) ++
             '_' :: toFixed3 (round3 seg.start +
               round3 (max (1 / 100) (seg.«end» - seg.start)))),
           speakerId := seg.speakerId,
           start := round3 seg.start,
           «end» := round3 seg.start +
             round3 (max (1 / 100) (seg.«end» - seg.start)) } : Segment))).Pairwise byStart := by
      rw [List.pairwise_map]
      refine (sortByStart_pairwise (s0 :: rest)).imp ?_
      intro a b hab
      exact round3_mono hab
    unfold parseRTTMToSegments
    rw [hsplit, List.filterMap_append, filterMap_parse_lines _ hfid _ hmem]
    rw [show (([([] : List Char)] : List (List Char)).filterMap parseRTTMLine) =
      ([] : List Segment) from rfl]
    rw [List.append_nil, List.Sorted.insertionSort_eq hsorted, List.map_map]
    rfl

set_option maxHeartbeats 4000000 in
set_option maxRecDepth 8000 in
/-- **C8 counterexample** — A segment list with distinct positive durations
whose speaker id contains a space: the id is split across RTTM fields, so
the parsed `(speakerId, start, end)` triples differ from the input's even
after rounding (the recovered speaker id is only the first word). -/
theorem rttm_roundtrip_counterexample :
    (∀ seg ∈ ([⟨"i", "a b", 0, 1⟩] : List Segment), 0 < seg.«end» - seg.start) ∧
    ([⟨"i", "a b", 0, 1⟩] : List Segment).Pairwise
      (fun a b => a.«end» - a.start ≠ b.«end» - b.start) ∧
    (parseRTTMToSegments (segmentsToRTTM [⟨"i", "a b", 0, 1⟩] ("unknown".data))).map
        (fun s => (s.speakerId, s.start, s.«end»)) ≠
      [(("a b" : String), (0 : ℚ), (1 : ℚ))] := by
  refine ⟨?_, ?_, ?_⟩
  · intro seg hseg
    rcases List.mem_singleton.mp hseg with rfl
    norm_num
  · simp
  · have h : parseRTTMToSegments (segmentsToRTTM [⟨"i", "a b", 0, 1⟩] ("unknown".data)) =
        [⟨"a_0.000_1.000", "a", 0, 1⟩] := by
      norm_num +decide [parseRTTMToSegments, segmentsToRTTM, sortByStart, List.insertionSort,
        List.orderedInsert, rttmLine, joinSep, toFixed3, fixed3Int, natChars, pad3,
        digitChar_zero, digitChar_one, round_eq, Nat.digits_def', splitLines,
        splitNlAux, stripCr, parseRTTMLine, trimWs, tokens, tokensAux,
        speakerIdOfFields, parseFloatQ, parseFloatPos, takeDigits, digitVal, beVal,
        parseExpPart, fracSplit, max_def, String.mk, List.filterMap_cons,
        List.filterMap_nil, digitChar_two, digitChar_three,
        digitChar_four, digitChar_five, digitChar_six, digitChar_seven,
        digitChar_eight, digitChar_nine]
    rw [h]
    decide

/-- Witness for C8 on a concrete one-segment list. -/
theorem rttm_roundtrip_witness :
    (∀ seg ∈ ([⟨"i", "A", 0, 1⟩] : List Segment), wsFree seg.speakerId.data) ∧
    (∀ seg ∈ ([⟨"i", "A", 0, 1⟩] : List Segment), 0 < seg.«end» - seg.start) ∧
    ([⟨"i", "A", 0, 1⟩] : List Segment).Pairwise
      (fun a b => a.«end» - a.start ≠ b.«end» - b.start) ∧
    ((parseRTTMToSegments (segmentsToRTTM [⟨"i", "A", 0, 1⟩] ("unknown".data))).map
        (fun s => (s.speakerId, s.start, s.«end»)) =
      (sortByStart [⟨"i", "A", 0, 1⟩]).map (fun s => (s.speakerId, round3 s.start,
        round3 s.start + round3 (max (1 / 100) (s.«end» - s.start)))) ∧
      (parseRTTMToSegments (segmentsToRTTM [⟨"i", "A", 0, 1⟩]
        ("unknown".data))).Pairwise byStart) := by
  have h1 : ∀ seg ∈ ([⟨"i", "A", 0, 1⟩] : List Segment), wsFree seg.speakerId.data := by
    intro seg hseg
    rcases List.mem_singleton.mp hseg with rfl
    exact ⟨by decide, by decide⟩
  have h2 : ∀ seg ∈ ([⟨"i", "A", 0, 1⟩] : List Segment), 0 < seg.«end» - seg.start := by
    intro seg hseg
    rcases List.mem_singleton.mp hseg with rfl
    norm_num
  have h3 : ([⟨"i", "A", 0, 1⟩] : List Segment).Pairwise
      (fun a b => a.«end» - a.start ≠ b.«end» - b.start) := by simp
  exact ⟨h1, h2, h3, rttm_roundtrip _ h1 h2 h3⟩
